import Mathlib

/-!
Verification of the mongoose-version-handler plugin (src/src/index.ts and the
richer plugin variant embedded in src/src/index.test.ts, which carries the
backfill branch and is the variant the version-log claims cite).

The document model: mongoose documents and history patches are JSON-like
trees.  JavaScript objects compare by their key-value maps, so objects are
represented canonically with keys in strictly ascending order; `wf` states
that canonical form.  The external libraries `just-diff` (`diff` with
`jsonPatchPathConverter`) and `fast-json-patch` (`applyPatch`) are not
vendored in the repository; they are modelled from the specification
(sections 4.1 and 4.2): `computeDiff` recursively compares trees (Add for
keys only in `after`, Remove for keys only in `before`, Replace at differing
leaves, recursion into matching containers), and the applier executes
operations strictly in sequence, upserting on Add/Replace and treating
Remove at a missing path as a tolerated no-op.
-/

namespace MVH

/-- A JSON-like tree: the full structural state of a record ("Snapshot"). -/
inductive Json where
  | null : Json
  | bool : Bool → Json
  | num : Int → Json
  | str : String → Json
  | arr : List Json → Json
  | obj : List (String × Json) → Json

/-- One segment of a JSON-pointer path: an object key or an array index. -/
inductive Seg where
  | key : String → Seg
  | idx : Nat → Seg
deriving DecidableEq

/-- A single structural patch operation.  The history schema in the source
stores exactly `{op, path, value}` (src/src/index.ts lines 25-31), so only
the three kinds the diff engine produces are representable. -/
inductive PatchOp where
  | add : List Seg → Json → PatchOp
  | remove : List Seg → PatchOp
  | replace : List Seg → Json → PatchOp

/-- The path of a patch operation. -/
def opPath : PatchOp → List Seg
  | PatchOp.add p _ => p
  | PatchOp.remove p => p
  | PatchOp.replace p _ => p

/-- Lexicographic order on character lists, used to order object keys. -/
def charsLtB : List Char → List Char → Bool
  | _, [] => false
  | [], _ :: _ => true
  | a :: as, b :: bs => decide (a < b) || (decide (a = b) && charsLtB as bs)

/-- Strict total order on object keys (lexicographic on the characters). -/
def keyLtB (a b : String) : Bool := charsLtB a.data b.data

mutual
/-- Boolean structural equality on `Json`, modelling value equality of
JavaScript trees (on canonical objects it coincides with `=`, see
`jeq_eq`). -/
def jeq : Json → Json → Bool
  | Json.null, Json.null => true
  | Json.bool a, Json.bool b => a = b
  | Json.num a, Json.num b => a = b
  | Json.str a, Json.str b => a = b
  | Json.arr a, Json.arr b => jeqList a b
  | Json.obj a, Json.obj b => jeqPairs a b
  | _, _ => false

def jeqList : List Json → List Json → Bool
  | [], [] => true
  | x :: t, y :: u => jeq x y && jeqList t u
  | _, _ => false

def jeqPairs : List (String × Json) → List (String × Json) → Bool
  | [], [] => true
  | (k, v) :: t, (k', v') :: u => decide (k = k') && jeq v v' && jeqPairs t u
  | _, _ => false
end

/-- Look a key up in an object's field list (first match). -/
def objGet (k : String) : List (String × Json) → Option Json
  | [] => none
  | (k', v) :: t => if k = k' then some v else objGet k t

/-- Upsert a key into an object's field list, keeping keys sorted. -/
def objSet (k : String) (v : Json) : List (String × Json) → List (String × Json)
  | [] => [(k, v)]
  | (k', v') :: t =>
    if keyLtB k k' then (k, v) :: (k', v') :: t
    else if k = k' then (k, v) :: t
    else (k', v') :: objSet k v t

/-- Delete a key from an object's field list; a no-op when absent. -/
def objRemove (k : String) : List (String × Json) → List (String × Json)
  | [] => []
  | (k', v') :: t => if k = k' then t else (k', v') :: objRemove k t

/-- Insert a value into a list at an index (appends when out of range),
the array semantics of a JSON-patch Add. -/
def insertIdxAt (i : Nat) (v : Json) (xs : List Json) : List Json :=
  xs.take i ++ v :: xs.drop i

/-- The child used when descending through a missing intermediate path
segment: Add/Replace create intermediate containers as needed, the kind
chosen by the next segment. -/
def childAt : Option Json → List Seg → Json
  | some c, _ => c
  | none, Seg.idx _ :: _ => Json.arr []
  | none, _ => Json.obj []

/-- Modelled from the spec: the applier's Add.  Upserts at the path,
creating intermediate containers as needed; at an array index it inserts;
at the root it replaces the whole document. -/
def addAt : Json → List Seg → Json → Json
  | _, [], v => v
  | Json.obj l, [Seg.key k], v => Json.obj (objSet k v l)
  | Json.arr xs, [Seg.idx i], v => Json.arr (insertIdxAt i v xs)
  | Json.obj l, Seg.key k :: p₁ :: p₂, v =>
      Json.obj (objSet k (addAt (childAt (objGet k l) (p₁ :: p₂)) (p₁ :: p₂) v) l)
  | Json.arr xs, Seg.idx i :: p₁ :: p₂, v =>
      match xs[i]? with
      | some c => Json.arr (xs.set i (addAt c (p₁ :: p₂) v))
      | none => Json.arr xs
  | d, _, _ => d

/-- Modelled from the spec: the applier's Replace.  Upserts at the path;
at an array index it overwrites in place. -/
def replaceAt : Json → List Seg → Json → Json
  | _, [], v => v
  | Json.obj l, [Seg.key k], v => Json.obj (objSet k v l)
  | Json.arr xs, [Seg.idx i], v => Json.arr (xs.set i v)
  | Json.obj l, Seg.key k :: p₁ :: p₂, v =>
      Json.obj (objSet k (replaceAt (childAt (objGet k l) (p₁ :: p₂)) (p₁ :: p₂) v) l)
  | Json.arr xs, Seg.idx i :: p₁ :: p₂, v =>
      match xs[i]? with
      | some c => Json.arr (xs.set i (replaceAt c (p₁ :: p₂) v))
      | none => Json.arr xs
  | d, _, _ => d

/-- Modelled from the spec: the applier's Remove.  Removing at a path that
does not exist (anywhere along the path) is a tolerated no-op, not an
error.  A Remove at the root is also a no-op (the diff engine never emits
one). -/
def removeAt : Json → List Seg → Json
  | d, [] => d
  | Json.obj l, [Seg.key k] => Json.obj (objRemove k l)
  | Json.arr xs, [Seg.idx i] => Json.arr (xs.eraseIdx i)
  | Json.obj l, Seg.key k :: p₁ :: p₂ =>
      match objGet k l with
      | some c => Json.obj (objSet k (removeAt c (p₁ :: p₂)) l)
      | none => Json.obj l
  | Json.arr xs, Seg.idx i :: p₁ :: p₂ =>
      match xs[i]? with
      | some c => Json.arr (xs.set i (removeAt c (p₁ :: p₂)))
      | none => Json.arr xs
  | d, _ => d

/-- Apply one patch operation to a document. -/
def applyOp (d : Json) : PatchOp → Json
  | PatchOp.add p v => addAt d p v
  | PatchOp.remove p => removeAt d p
  | PatchOp.replace p v => replaceAt d p v

/-- Modelled from the spec: `apply(base, ops)` — operations execute
strictly in sequence against the intermediate result (the consumer is
fast-json-patch's `applyPatch` in the source, which is not vendored). -/
def applyPatch (d : Json) (ops : List PatchOp) : Json := ops.foldl applyOp d

/-- Resolve a path in a document (`none` when the path does not exist). -/
def getPath : Json → List Seg → Option Json
  | d, [] => some d
  | Json.obj l, Seg.key k :: p =>
    match objGet k l with
    | some c => getPath c p
    | none => none
  | Json.arr xs, Seg.idx i :: p =>
    match xs[i]? with
    | some c => getPath c p
    | none => none
  | _, _ => none

/-- Keys of an object's field list are strictly ascending (adjacent). -/
def keysSortedB : List (String × Json) → Bool
  | [] => true
  | [_] => true
  | (k₁, v₁) :: (k₂, v₂) :: t => keyLtB k₁ k₂ && keysSortedB ((k₂, v₂) :: t)

mutual
/-- Well-formed trees: every object in the tree is in canonical form
(strictly sorted keys, hence no duplicates). -/
def wf : Json → Bool
  | Json.null => true
  | Json.bool _ => true
  | Json.num _ => true
  | Json.str _ => true
  | Json.arr xs => wfList xs
  | Json.obj l => keysSortedB l && wfPairs l

def wfList : List Json → Bool
  | [] => true
  | x :: t => wf x && wfList t

def wfPairs : List (String × Json) → Bool
  | [] => true
  | (_, v) :: t => wf v && wfPairs t
end

/-- Wrap a patch operation so that it acts below the given path segment. -/
def underSeg (s : Seg) : PatchOp → PatchOp
  | PatchOp.add p v => PatchOp.add (s :: p) v
  | PatchOp.remove p => PatchOp.remove (s :: p)
  | PatchOp.replace p v => PatchOp.replace (s :: p) v

mutual
/-- Modelled from the spec: the diff engine (`diff` of just-diff with
`jsonPatchPathConverter` in the source, not vendored).  `computeDiff`
recursively compares trees: keys/indices present only in `after` yield
Add, present only in `before` yield Remove, present in both with differing
value yield Replace, recursing into nested containers of matching kind;
mismatched kinds replace the node wholesale.  Array trailing removals are
emitted with descending indices so sequential application is exact. -/
def computeDiff : Json → Json → List PatchOp
  | Json.obj l₁, Json.obj l₂ => diffObj l₁ l₂
  | Json.arr xs, Json.arr ys => diffArr xs ys 0
  | b, a => if jeq b a then [] else [PatchOp.replace [] a]
termination_by b a => sizeOf b + sizeOf a
decreasing_by all_goals (simp_wf <;> omega)

def diffObj : List (String × Json) → List (String × Json) → List PatchOp
  | [], [] => []
  | [], (k, v) :: t => PatchOp.add [Seg.key k] v :: diffObj [] t
  | (k, _) :: t, [] => PatchOp.remove [Seg.key k] :: diffObj t []
  | (k₁, v₁) :: t₁, (k₂, v₂) :: t₂ =>
    if keyLtB k₁ k₂ then PatchOp.remove [Seg.key k₁] :: diffObj t₁ ((k₂, v₂) :: t₂)
    else if keyLtB k₂ k₁ then PatchOp.add [Seg.key k₂] v₂ :: diffObj ((k₁, v₁) :: t₁) t₂
    else (computeDiff v₁ v₂).map (underSeg (Seg.key k₁)) ++ diffObj t₁ t₂
termination_by l₁ l₂ => sizeOf l₁ + sizeOf l₂
decreasing_by all_goals (simp_wf <;> omega)

def diffArr : List Json → List Json → Nat → List PatchOp
  | [], [], _ => []
  | [], y :: u, i => PatchOp.add [Seg.idx i] y :: diffArr [] u (i + 1)
  | _ :: t, [], i => diffArr t [] (i + 1) ++ [PatchOp.remove [Seg.idx i]]
  | x :: t, y :: u, i => (computeDiff x y).map (underSeg (Seg.idx i)) ++ diffArr t u (i + 1)
termination_by xs ys _ => sizeOf xs + sizeOf ys
decreasing_by all_goals (simp_wf <;> omega)
end

/-! ### Order facts about object keys -/

theorem charsLt_irrefl : ∀ l, charsLtB l l = false
  | [] => rfl
  | a :: as => by simp [charsLtB, charsLt_irrefl as]

theorem charsLt_trans : ∀ (l₁ l₂ l₃ : List Char), charsLtB l₁ l₂ = true →
    charsLtB l₂ l₃ = true → charsLtB l₁ l₃ = true := by
  intro l₁
  induction l₁ with
  | nil =>
    intro l₂ l₃ h₁ h₂
    cases l₂ with
    | nil => simp [charsLtB] at h₁
    | cons b bs =>
      cases l₃ with
      | nil => simp [charsLtB] at h₂
      | cons c cs => simp [charsLtB]
  | cons a as ih =>
    intro l₂ l₃ h₁ h₂
    cases l₂ with
    | nil => simp [charsLtB] at h₁
    | cons b bs =>
      cases l₃ with
      | nil => simp [charsLtB] at h₂
      | cons c cs =>
        simp only [charsLtB, Bool.or_eq_true, Bool.and_eq_true, decide_eq_true_eq] at h₁ h₂ ⊢
        rcases h₁ with h₁ | ⟨rfl, h₁⟩
        · rcases h₂ with h₂ | ⟨rfl, h₂⟩
          · exact Or.inl (lt_trans h₁ h₂)
          · exact Or.inl h₁
        · rcases h₂ with h₂ | ⟨rfl, h₂⟩
          · exact Or.inl h₂
          · exact Or.inr ⟨rfl, ih bs cs h₁ h₂⟩

theorem charsLt_antisymm : ∀ (l₁ l₂ : List Char), charsLtB l₁ l₂ = false →
    charsLtB l₂ l₁ = false → l₁ = l₂ := by
  intro l₁
  induction l₁ with
  | nil =>
    intro l₂ h₁ _
    cases l₂ with
    | nil => rfl
    | cons b bs => simp [charsLtB] at h₁
  | cons a as ih =>
    intro l₂ h₁ h₂
    cases l₂ with
    | nil => simp [charsLtB] at h₂
    | cons b bs =>
      simp only [charsLtB, Bool.or_eq_false_iff, Bool.and_eq_false_iff,
        decide_eq_false_iff_not] at h₁ h₂
      have hab : a = b := le_antisymm (not_lt.mp h₂.1) (not_lt.mp h₁.1)
      subst hab
      rcases h₁.2 with h | h
      · exact absurd rfl h
      · rcases h₂.2 with h' | h'
        · exact absurd rfl h'
        · rw [ih bs h h']

theorem keyLt_irrefl (a : String) : keyLtB a a = false := charsLt_irrefl _

theorem keyLt_trans {a b c : String} (h₁ : keyLtB a b = true) (h₂ : keyLtB b c = true) :
    keyLtB a c = true := charsLt_trans _ _ _ h₁ h₂

theorem keyLt_antisymm {a b : String} (h₁ : keyLtB a b = false) (h₂ : keyLtB b a = false) :
    a = b := by
  have h := charsLt_antisymm a.data b.data h₁ h₂
  cases a; cases b; simp_all

theorem keyLt_asymm {a b : String} (h : keyLtB a b = true) : keyLtB b a = false := by
  by_contra hc
  have hba : keyLtB b a = true := by revert hc; cases keyLtB b a <;> simp
  have : keyLtB a a = true := keyLt_trans h hba
  simp [keyLt_irrefl] at this

theorem keyLt_ne {a b : String} (h : keyLtB a b = true) : a ≠ b := by
  rintro rfl; simp [keyLt_irrefl] at h

/-! ### Sorted association lists -/

/-- Order on object entries: first keys strictly ascending. -/
def KeyLt (p q : String × Json) : Prop := keyLtB p.1 q.1 = true

/-- Canonical form of an object's field list: pairwise ascending keys. -/
def SortedKeys (l : List (String × Json)) : Prop := l.Pairwise KeyLt

theorem sortedKeys_iff : ∀ (l : List (String × Json)), keysSortedB l = true ↔ SortedKeys l := by
  intro l
  induction l with
  | nil => simp [keysSortedB, SortedKeys]
  | cons p t ih =>
    obtain ⟨k₁, v₁⟩ := p
    cases t with
    | nil => simp [keysSortedB, SortedKeys]
    | cons q u =>
      obtain ⟨k₂, v₂⟩ := q
      simp only [keysSortedB, Bool.and_eq_true] at ih ⊢
      constructor
      · rintro ⟨hlt, htail⟩
        have hs := ih.mp htail
        refine List.Pairwise.cons ?_ hs
        intro r hr
        rcases List.mem_cons.mp hr with rfl | hr
        · exact hlt
        · have hb := (List.pairwise_cons.mp hs).1 r hr
          exact keyLt_trans hlt hb
      · intro hs
        rcases List.pairwise_cons.mp hs with ⟨hb, htail⟩
        exact ⟨hb (k₂, v₂) (List.mem_cons_self _ _), ih.mpr htail⟩

theorem sorted_head_lt {k₀ : String} {v₀ : Json} {l : List (String × Json)}
    (hs : SortedKeys ((k₀, v₀) :: l)) {p : String × Json} (hm : p ∈ l) :
    keyLtB k₀ p.1 = true :=
  (List.pairwise_cons.mp hs).1 p hm

theorem sortedKeys_tail {p : String × Json} {l : List (String × Json)}
    (hs : SortedKeys (p :: l)) : SortedKeys l :=
  (List.pairwise_cons.mp hs).2

/-! ### Lemmas about the object field-list operations -/

theorem objGet_some_mem {k : String} {v : Json} : ∀ {l : List (String × Json)},
    objGet k l = some v → (k, v) ∈ l := by
  intro l
  induction l with
  | nil => intro h; simp [objGet] at h
  | cons p t ih =>
    obtain ⟨k', v'⟩ := p
    intro h
    by_cases hk : k = k'
    · subst hk; simp [objGet] at h; subst h; exact List.mem_cons_self _ _
    · simp [objGet, hk] at h
      exact List.mem_cons_of_mem _ (ih h)

theorem objGet_objSet_self (k : String) (v : Json) : ∀ l, objGet k (objSet k v l) = some v := by
  intro l
  induction l with
  | nil => simp [objSet, objGet]
  | cons p t ih =>
    obtain ⟨k', v'⟩ := p
    by_cases h₁ : keyLtB k k' = true
    · simp [objSet, h₁, objGet]
    · by_cases h₂ : k = k'
      · subst h₂; simp [objSet, h₁, objGet]
      · simp [objSet, h₁, h₂, objGet, ih]

theorem objSet_objSet_self (k : String) (v w : Json) :
    ∀ l, objSet k w (objSet k v l) = objSet k w l := by
  intro l
  induction l with
  | nil => simp [objSet, keyLt_irrefl]
  | cons p t ih =>
    obtain ⟨k', v'⟩ := p
    by_cases h₁ : keyLtB k k' = true
    · simp [objSet, h₁, keyLt_irrefl]
    · by_cases h₂ : k = k'
      · subst h₂; simp [objSet, h₁, keyLt_irrefl]
      · simp [objSet, h₁, h₂, ih]

theorem objSet_head_lt {k k' : String} (v v' : Json) (t : List (String × Json))
    (h : keyLtB k k' = true) : objSet k v ((k', v') :: t) = (k, v) :: (k', v') :: t := by
  simp [objSet, h]

theorem objSet_head_self (k : String) (v v' : Json) (t : List (String × Json)) :
    objSet k v ((k, v') :: t) = (k, v) :: t := by
  simp [objSet, keyLt_irrefl]

theorem objSet_head_gt {k k' : String} (v v' : Json) (t : List (String × Json))
    (h : keyLtB k' k = true) : objSet k v ((k', v') :: t) = (k', v') :: objSet k v t := by
  have h₁ : keyLtB k k' = false := keyLt_asymm h
  have h₂ : k ≠ k' := (keyLt_ne h).symm
  simp [objSet, h₁, h₂]

theorem objGet_head_ne {k k' : String} (v' : Json) (t : List (String × Json))
    (h : k ≠ k') : objGet k ((k', v') :: t) = objGet k t := by
  simp [objGet, h]

theorem objRemove_head_self (k : String) (v : Json) (t : List (String × Json)) :
    objRemove k ((k, v) :: t) = t := by
  simp [objRemove]

theorem objRemove_head_ne {k k' : String} (v' : Json) (t : List (String × Json))
    (h : k ≠ k') : objRemove k ((k', v') :: t) = (k', v') :: objRemove k t := by
  simp [objRemove, h]

theorem objRemove_of_objGet_none {k : String} : ∀ {l : List (String × Json)},
    objGet k l = none → objRemove k l = l := by
  intro l
  induction l with
  | nil => intro _; rfl
  | cons p t ih =>
    obtain ⟨k', v'⟩ := p
    intro h
    by_cases hk : k = k'
    · subst hk; simp [objGet] at h
    · simp [objGet, hk] at h
      simp [objRemove, hk, ih h]

theorem objSet_of_objGet_some {k : String} {v : Json} : ∀ {l : List (String × Json)},
    SortedKeys l → objGet k l = some v → objSet k v l = l := by
  intro l
  induction l with
  | nil => intro _ h; simp [objGet] at h
  | cons p t ih =>
    obtain ⟨k', v'⟩ := p
    intro hs h
    by_cases hk : k = k'
    · subst hk
      simp [objGet] at h
      subst h
      exact objSet_head_self _ _ _ _
    · simp [objGet, hk] at h
      have hmem := objGet_some_mem h
      have hlt : keyLtB k' k = true := sorted_head_lt hs hmem
      rw [objSet_head_gt _ _ _ hlt, ih (sortedKeys_tail hs) h]

/-! ### Shape and framing lemmas for the applier -/

/-- Operations whose path starts with an object key. -/
def keyHeaded (op : PatchOp) : Bool :=
  match opPath op with
  | Seg.key _ :: _ => true
  | _ => false

/-- Operations that are not a root Add or root Remove (the diff engine
emits at most a root Replace). -/
def goodOp (op : PatchOp) : Bool :=
  match op with
  | PatchOp.add [] _ => false
  | PatchOp.remove [] => false
  | _ => true

/-- Prepend a field to an object; identity on non-objects. -/
def consObj (k : String) (v : Json) : Json → Json
  | Json.obj l => Json.obj ((k, v) :: l)
  | d => d

/-- Operations whose path starts with a key strictly above `k₀`. -/
def keyHeadGt (k₀ : String) (op : PatchOp) : Bool :=
  match opPath op with
  | Seg.key k :: _ => keyLtB k₀ k
  | _ => false

theorem keyHeaded_of_gt {k₀ : String} {op : PatchOp} (h : keyHeadGt k₀ op = true) :
    keyHeaded op = true := by
  unfold keyHeadGt at h
  unfold keyHeaded
  rcases hp : opPath op with _ | ⟨s, p⟩
  · rw [hp] at h; simp at h
  · rw [hp] at h
    cases s with
    | key k => rfl
    | idx i => simp at h

theorem objSet_mem {k : String} {v : Json} {r : String × Json} :
    ∀ {l : List (String × Json)}, r ∈ objSet k v l → r = (k, v) ∨ r ∈ l := by
  intro l
  induction l with
  | nil => intro h; simp [objSet] at h; exact Or.inl h
  | cons p t ih =>
    obtain ⟨k', v'⟩ := p
    intro h
    by_cases h₁ : keyLtB k k' = true
    · rw [objSet_head_lt _ _ _ h₁] at h
      rcases List.mem_cons.mp h with rfl | h
      · exact Or.inl rfl
      · exact Or.inr h
    · by_cases h₂ : k = k'
      · subst h₂
        rw [objSet_head_self] at h
        rcases List.mem_cons.mp h with rfl | h
        · exact Or.inl rfl
        · exact Or.inr (List.mem_cons_of_mem _ h)
      · have h₃ : keyLtB k' k = true := by
          rcases hkk : keyLtB k' k with _ | _
          · exact absurd (keyLt_antisymm (by simpa using h₁) hkk) h₂
          · rfl
        rw [objSet_head_gt _ _ _ h₃] at h
        rcases List.mem_cons.mp h with rfl | h
        · exact Or.inr (List.mem_cons_self _ _)
        · rcases ih h with h | h
          · exact Or.inl h
          · exact Or.inr (List.mem_cons_of_mem _ h)

theorem sortedKeys_objSet {k : String} {v : Json} : ∀ {l : List (String × Json)},
    SortedKeys l → SortedKeys (objSet k v l) := by
  intro l
  induction l with
  | nil => intro _; simp [objSet, SortedKeys]
  | cons p t ih =>
    obtain ⟨k', v'⟩ := p
    intro hs
    by_cases h₁ : keyLtB k k' = true
    · rw [objSet_head_lt _ _ _ h₁]
      refine List.Pairwise.cons ?_ hs
      intro r hr
      rcases List.mem_cons.mp hr with rfl | hr
      · exact h₁
      · exact keyLt_trans h₁ (sorted_head_lt hs hr)
    · by_cases h₂ : k = k'
      · subst h₂
        rw [objSet_head_self]
        refine List.Pairwise.cons ?_ (sortedKeys_tail hs)
        intro r hr
        exact sorted_head_lt hs hr
      · have h₃ : keyLtB k' k = true := by
          rcases hkk : keyLtB k' k with _ | _
          · exact absurd (keyLt_antisymm (by simpa using h₁) hkk) h₂
          · rfl
        rw [objSet_head_gt _ _ _ h₃]
        refine List.Pairwise.cons ?_ (ih (sortedKeys_tail hs))
        intro r hr
        rcases objSet_mem hr with rfl | hr
        · exact h₃
        · exact sorted_head_lt hs hr

theorem applyOp_obj_shape {op : PatchOp} (h : keyHeaded op = true) (l : List (String × Json)) :
    ∃ l', applyOp (Json.obj l) op = Json.obj l' := by
  match op with
  | PatchOp.add (Seg.key k :: p) v =>
    cases p with
    | nil => exact ⟨_, rfl⟩
    | cons p₁ p₂ => exact ⟨_, rfl⟩
  | PatchOp.replace (Seg.key k :: p) v =>
    cases p with
    | nil => exact ⟨_, rfl⟩
    | cons p₁ p₂ => exact ⟨_, rfl⟩
  | PatchOp.remove (Seg.key k :: p) =>
    cases p with
    | nil => exact ⟨_, rfl⟩
    | cons p₁ p₂ =>
      simp only [applyOp, removeAt]
      rcases objGet k l with _ | c
      · exact ⟨_, rfl⟩
      · exact ⟨_, rfl⟩
  | PatchOp.add [] v => simp [keyHeaded, opPath] at h
  | PatchOp.replace [] v => simp [keyHeaded, opPath] at h
  | PatchOp.remove [] => simp [keyHeaded, opPath] at h
  | PatchOp.add (Seg.idx i :: p) v => simp [keyHeaded, opPath] at h
  | PatchOp.replace (Seg.idx i :: p) v => simp [keyHeaded, opPath] at h
  | PatchOp.remove (Seg.idx i :: p) => simp [keyHeaded, opPath] at h

theorem applyOp_obj_under {op : PatchOp} (hg : goodOp op = true) {l : List (String × Json)}
    {k : String} {v : Json} (h : objGet k l = some v) :
    applyOp (Json.obj l) (underSeg (Seg.key k) op) = Json.obj (objSet k (applyOp v op) l) := by
  match op with
  | PatchOp.add p w =>
    cases p with
    | nil => simp [underSeg, applyOp, addAt]
    | cons p₁ p₂ => simp [underSeg, applyOp, addAt, h, childAt]
  | PatchOp.replace p w =>
    cases p with
    | nil => simp [underSeg, applyOp, replaceAt]
    | cons p₁ p₂ => simp [underSeg, applyOp, replaceAt, h, childAt]
  | PatchOp.remove p =>
    cases p with
    | nil => simp [goodOp] at hg
    | cons p₁ p₂ => simp [underSeg, applyOp, removeAt, h]

theorem applyPatch_obj_under {ops : List PatchOp} (hg : ∀ op ∈ ops, goodOp op = true) :
    ∀ {l : List (String × Json)} {k : String} {v : Json}, SortedKeys l → objGet k l = some v →
    applyPatch (Json.obj l) (ops.map (underSeg (Seg.key k))) =
      Json.obj (objSet k (applyPatch v ops) l) := by
  induction ops with
  | nil =>
    intro l k v hs h
    simp [applyPatch]
    exact (objSet_of_objGet_some hs h).symm
  | cons op rest ih =>
    intro l k v hs h
    have hgop := hg op (List.mem_cons_self _ _)
    have hgrest : ∀ o ∈ rest, goodOp o = true := fun o ho => hg o (List.mem_cons_of_mem _ ho)
    simp only [List.map_cons, applyPatch, List.foldl_cons]
    rw [show applyOp (Json.obj l) (underSeg (Seg.key k) op) =
        Json.obj (objSet k (applyOp v op) l) from applyOp_obj_under hgop h]
    have hs' : SortedKeys (objSet k (applyOp v op) l) := sortedKeys_objSet hs
    have h' : objGet k (objSet k (applyOp v op) l) = some (applyOp v op) :=
      objGet_objSet_self _ _ _
    have := ih hgrest hs' h'
    simp only [applyPatch] at this ⊢
    rw [this, objSet_objSet_self]

theorem applyOp_obj_consfr {op : PatchOp} {k₀ : String} (v₀ : Json)
    (hk : keyHeadGt k₀ op = true) (l : List (String × Json)) :
    applyOp (Json.obj ((k₀, v₀) :: l)) op = consObj k₀ v₀ (applyOp (Json.obj l) op) := by
  match op with
  | PatchOp.add (Seg.key k :: p) v =>
    have hlt : keyLtB k₀ k = true := by simpa [keyHeadGt, opPath] using hk
    have hne : k ≠ k₀ := (keyLt_ne hlt).symm
    cases p with
    | nil => simp [applyOp, addAt, consObj, objSet_head_gt _ _ _ hlt]
    | cons p₁ p₂ =>
      simp [applyOp, addAt, consObj, objGet_head_ne _ _ hne, objSet_head_gt _ _ _ hlt]
  | PatchOp.replace (Seg.key k :: p) v =>
    have hlt : keyLtB k₀ k = true := by simpa [keyHeadGt, opPath] using hk
    have hne : k ≠ k₀ := (keyLt_ne hlt).symm
    cases p with
    | nil => simp [applyOp, replaceAt, consObj, objSet_head_gt _ _ _ hlt]
    | cons p₁ p₂ =>
      simp [applyOp, replaceAt, consObj, objGet_head_ne _ _ hne, objSet_head_gt _ _ _ hlt]
  | PatchOp.remove (Seg.key k :: p) =>
    have hlt : keyLtB k₀ k = true := by simpa [keyHeadGt, opPath] using hk
    have hne : k ≠ k₀ := (keyLt_ne hlt).symm
    cases p with
    | nil => simp [applyOp, removeAt, consObj, objRemove_head_ne _ _ hne]
    | cons p₁ p₂ =>
      simp only [applyOp, removeAt, objGet_head_ne _ _ hne]
      rcases hg : objGet k l with _ | c
      · simp [consObj]
      · simp [consObj, objSet_head_gt _ _ _ hlt]
  | PatchOp.add [] v => simp [keyHeadGt, opPath] at hk
  | PatchOp.replace [] v => simp [keyHeadGt, opPath] at hk
  | PatchOp.remove [] => simp [keyHeadGt, opPath] at hk
  | PatchOp.add (Seg.idx i :: p) v => simp [keyHeadGt, opPath] at hk
  | PatchOp.replace (Seg.idx i :: p) v => simp [keyHeadGt, opPath] at hk
  | PatchOp.remove (Seg.idx i :: p) => simp [keyHeadGt, opPath] at hk

theorem applyPatch_obj_consfr {ops : List PatchOp} {k₀ : String} (v₀ : Json)
    (hk : ∀ op ∈ ops, keyHeadGt k₀ op = true) :
    ∀ (l : List (String × Json)),
    applyPatch (Json.obj ((k₀, v₀) :: l)) ops = consObj k₀ v₀ (applyPatch (Json.obj l) ops) := by
  induction ops with
  | nil => intro l; simp [applyPatch, consObj]
  | cons op rest ih =>
    intro l
    have hkop := hk op (List.mem_cons_self _ _)
    have hkrest : ∀ o ∈ rest, keyHeadGt k₀ o = true := fun o ho => hk o (List.mem_cons_of_mem _ ho)
    obtain ⟨l', hl'⟩ := applyOp_obj_shape (keyHeaded_of_gt hkop) l
    simp only [applyPatch, List.foldl_cons]
    rw [applyOp_obj_consfr v₀ hkop l, hl']
    simp only [consObj]
    exact ih hkrest l'

/-! ### Array framing lemmas -/

theorem getq_set_self : ∀ (xs : List Json) (i : Nat) (z xi : Json),
    xs[i]? = some xi → (xs.set i z)[i]? = some z := by
  intro xs
  induction xs with
  | nil => intro i z xi h; simp at h
  | cons x t ih =>
    intro i z xi h
    cases i with
    | zero => simp
    | succ j => simp only [List.set_cons_succ, List.getElem?_cons_succ] at h ⊢; exact ih j z xi h

theorem set_getq_self : ∀ (xs : List Json) (i : Nat) (xi : Json),
    xs[i]? = some xi → xs.set i xi = xs := by
  intro xs
  induction xs with
  | nil => intro i xi h; simp at h
  | cons x t ih =>
    intro i xi h
    cases i with
    | zero => simp at h; simp [h]
    | succ j => simp only [List.getElem?_cons_succ] at h; simp [ih j xi h]

theorem applyOp_arr_under {op : PatchOp} (hg : goodOp op = true) {xs : List Json} {i : Nat}
    {xi : Json} (h : xs[i]? = some xi) :
    applyOp (Json.arr xs) (underSeg (Seg.idx i) op) = Json.arr (xs.set i (applyOp xi op)) := by
  match op with
  | PatchOp.add p w =>
    cases p with
    | nil => simp [goodOp] at hg
    | cons p₁ p₂ => simp [underSeg, applyOp, addAt, h]
  | PatchOp.replace p w =>
    cases p with
    | nil => simp [underSeg, applyOp, replaceAt]
    | cons p₁ p₂ => simp [underSeg, applyOp, replaceAt, h]
  | PatchOp.remove p =>
    cases p with
    | nil => simp [goodOp] at hg
    | cons p₁ p₂ => simp [underSeg, applyOp, removeAt, h]

theorem applyPatch_arr_under {ops : List PatchOp} (hg : ∀ op ∈ ops, goodOp op = true) :
    ∀ {xs : List Json} {i : Nat} {xi : Json}, xs[i]? = some xi →
    applyPatch (Json.arr xs) (ops.map (underSeg (Seg.idx i))) =
      Json.arr (xs.set i (applyPatch xi ops)) := by
  induction ops with
  | nil =>
    intro xs i xi h
    simp [applyPatch]
    exact (set_getq_self xs i xi h).symm
  | cons op rest ih =>
    intro xs i xi h
    have hgop := hg op (List.mem_cons_self _ _)
    have hgrest : ∀ o ∈ rest, goodOp o = true := fun o ho => hg o (List.mem_cons_of_mem _ ho)
    simp only [List.map_cons, applyPatch, List.foldl_cons]
    rw [show applyOp (Json.arr xs) (underSeg (Seg.idx i) op) =
        Json.arr (xs.set i (applyOp xi op)) from applyOp_arr_under hgop h]
    have h' : (xs.set i (applyOp xi op))[i]? = some (applyOp xi op) := getq_set_self _ _ _ _ h
    have := ih hgrest h'
    simp only [applyPatch] at this
    rw [this, List.set_set]

/-! ### Soundness of the Boolean equality -/

theorem jeqList_eq_of {xs : List Json} (hel : ∀ x ∈ xs, ∀ y, jeq x y = true → x = y) :
    ∀ {ys : List Json}, jeqList xs ys = true → xs = ys := by
  induction xs with
  | nil => intro ys h; cases ys with
    | nil => rfl
    | cons y u => simp [jeqList] at h
  | cons x t ih =>
    intro ys h
    cases ys with
    | nil => simp [jeqList] at h
    | cons y u =>
      simp only [jeqList, Bool.and_eq_true] at h
      have hx := hel x (List.mem_cons_self _ _) y h.1
      have ht := ih (fun z hz => hel z (List.mem_cons_of_mem _ hz)) h.2
      rw [hx, ht]

theorem jeqPairs_eq_of {l₁ : List (String × Json)}
    (hel : ∀ p ∈ l₁, ∀ y, jeq p.2 y = true → p.2 = y) :
    ∀ {l₂ : List (String × Json)}, jeqPairs l₁ l₂ = true → l₁ = l₂ := by
  induction l₁ with
  | nil => intro l₂ h; cases l₂ with
    | nil => rfl
    | cons q u => simp [jeqPairs] at h
  | cons p t ih =>
    intro l₂ h
    cases l₂ with
    | nil => obtain ⟨k, v⟩ := p; simp [jeqPairs] at h
    | cons q u =>
      obtain ⟨k, v⟩ := p
      obtain ⟨k', v'⟩ := q
      simp only [jeqPairs, Bool.and_eq_true, decide_eq_true_eq] at h
      have hv : v = v' := hel (k, v) (List.mem_cons_self _ _) v' h.1.2
      have ht := ih (fun z hz => hel z (List.mem_cons_of_mem _ hz)) h.2
      rw [h.1.1, hv, ht]

theorem jeq_eq_aux : ∀ (n : Nat) (b a : Json), sizeOf b ≤ n → jeq b a = true → b = a := by
  intro n
  induction n with
  | zero =>
    intro b a hs _
    exfalso
    cases b <;> simp at hs <;> omega
  | succ n ih =>
    intro b a hs h
    cases b <;> cases a
    all_goals simp only [jeq] at h
    all_goals try (exact absurd h Bool.false_ne_true)
    · rfl
    · rename_i x y; rw [of_decide_eq_true h]
    · rename_i x y; rw [of_decide_eq_true h]
    · rename_i x y; rw [of_decide_eq_true h]
    · -- arrays
      rename_i xs ys
      have hsz : sizeOf xs ≤ n := by simp at hs; omega
      have hel : ∀ x ∈ xs, ∀ y, jeq x y = true → x = y := by
        intro x hx y hxy
        have hlt := List.sizeOf_lt_of_mem hx
        exact ih x y (by omega) hxy
      rw [jeqList_eq_of hel h]
    · -- objects
      rename_i l₁ l₂
      have hsz : sizeOf l₁ ≤ n := by simp at hs; omega
      have hel : ∀ p ∈ l₁, ∀ y, jeq p.2 y = true → p.2 = y := by
        intro p hp y hxy
        have hlt := List.sizeOf_lt_of_mem hp
        obtain ⟨k, v⟩ := p
        have hv : sizeOf v ≤ n := by simp at hlt; omega
        exact ih v y hv hxy
      rw [jeqPairs_eq_of hel h]

theorem jeq_eq {b a : Json} (h : jeq b a = true) : b = a :=
  jeq_eq_aux (sizeOf b) b a le_rfl h

/-! ### Unfolding the well-formedness predicate -/

theorem wfList_iff : ∀ (xs : List Json), wfList xs = true ↔ ∀ x ∈ xs, wf x = true := by
  intro xs
  induction xs with
  | nil => simp [wfList]
  | cons x t ih => simp [wfList, ih]

theorem wfPairs_iff : ∀ (l : List (String × Json)), wfPairs l = true ↔ ∀ p ∈ l, wf p.2 = true := by
  intro l
  induction l with
  | nil => simp [wfPairs]
  | cons p t ih =>
    obtain ⟨k, v⟩ := p
    simp only [wfPairs, Bool.and_eq_true, ih, List.mem_cons]
    constructor
    · rintro ⟨hv, ht⟩ q (rfl | hq)
      · exact hv
      · exact ht q hq
    · intro hh
      exact ⟨hh (k, v) (Or.inl rfl), fun q hq => hh q (Or.inr hq)⟩

theorem wf_obj {l : List (String × Json)} (h : wf (Json.obj l) = true) :
    SortedKeys l ∧ ∀ p ∈ l, wf p.2 = true := by
  simp only [wf, Bool.and_eq_true] at h
  exact ⟨(sortedKeys_iff l).mp h.1, (wfPairs_iff l).mp h.2⟩

theorem wf_arr {xs : List Json} (h : wf (Json.arr xs) = true) : ∀ x ∈ xs, wf x = true := by
  simp only [wf] at h
  exact (wfList_iff xs).mp h

/-! ### Characterising the operations the diff engine emits -/

theorem opPath_underSeg (s : Seg) (op : PatchOp) : opPath (underSeg s op) = s :: opPath op := by
  cases op <;> rfl

theorem applyPatch_cons (d : Json) (op : PatchOp) (ops : List PatchOp) :
    applyPatch d (op :: ops) = applyPatch (applyOp d op) ops := rfl

theorem applyPatch_append (d : Json) (ops₁ ops₂ : List PatchOp) :
    applyPatch d (ops₁ ++ ops₂) = applyPatch (applyPatch d ops₁) ops₂ :=
  List.foldl_append _ _ _ _

theorem goodOp_of_path_cons {op : PatchOp} {s : Seg} {p : List Seg}
    (h : opPath op = s :: p) : goodOp op = true := by
  cases op <;> simp only [opPath] at h <;> subst h <;> rfl

theorem diffObj_paths : ∀ (l₁ l₂ : List (String × Json)) (op : PatchOp), op ∈ diffObj l₁ l₂ →
    ∃ k p, opPath op = Seg.key k :: p ∧ ((∃ v, (k, v) ∈ l₁) ∨ ∃ v, (k, v) ∈ l₂) := by
  intro l₁
  induction l₁ with
  | nil =>
    intro l₂
    induction l₂ with
    | nil => intro op h; simp [diffObj] at h
    | cons q u ihq =>
      obtain ⟨k, v⟩ := q
      intro op h
      simp only [diffObj] at h
      rcases List.mem_cons.mp h with rfl | h
      · exact ⟨k, [], rfl, Or.inr ⟨v, List.mem_cons_self _ _⟩⟩
      · obtain ⟨k', p', hp, hm⟩ := ihq op h
        refine ⟨k', p', hp, ?_⟩
        rcases hm with ⟨v', hv⟩ | ⟨v', hv⟩
        · simp at hv
        · exact Or.inr ⟨v', List.mem_cons_of_mem _ hv⟩
  | cons pq t₁ ih₁ =>
    obtain ⟨k₁, v₁⟩ := pq
    intro l₂
    induction l₂ with
    | nil =>
      intro op h
      simp only [diffObj] at h
      rcases List.mem_cons.mp h with rfl | h
      · exact ⟨k₁, [], rfl, Or.inl ⟨v₁, List.mem_cons_self _ _⟩⟩
      · obtain ⟨k', p', hp, hm⟩ := ih₁ [] op h
        refine ⟨k', p', hp, ?_⟩
        rcases hm with ⟨v', hv⟩ | ⟨v', hv⟩
        · exact Or.inl ⟨v', List.mem_cons_of_mem _ hv⟩
        · simp at hv
    | cons q t₂ ih₂ =>
      obtain ⟨k₂, v₂⟩ := q
      intro op h
      by_cases h₁ : keyLtB k₁ k₂ = true
      · simp only [diffObj, h₁, if_true] at h
        rcases List.mem_cons.mp h with rfl | h
        · exact ⟨k₁, [], rfl, Or.inl ⟨v₁, List.mem_cons_self _ _⟩⟩
        · obtain ⟨k', p', hp, hm⟩ := ih₁ ((k₂, v₂) :: t₂) op h
          refine ⟨k', p', hp, ?_⟩
          rcases hm with ⟨v', hv⟩ | ⟨v', hv⟩
          · exact Or.inl ⟨v', List.mem_cons_of_mem _ hv⟩
          · exact Or.inr ⟨v', hv⟩
      · by_cases h₂ : keyLtB k₂ k₁ = true
        · simp only [diffObj, h₁, h₂, if_true, if_false, Bool.false_eq_true] at h
          rcases List.mem_cons.mp h with rfl | h
          · exact ⟨k₂, [], rfl, Or.inr ⟨v₂, List.mem_cons_self _ _⟩⟩
          · obtain ⟨k', p', hp, hm⟩ := ih₂ op h
            refine ⟨k', p', hp, ?_⟩
            rcases hm with ⟨v', hv⟩ | ⟨v', hv⟩
            · exact Or.inl ⟨v', hv⟩
            · exact Or.inr ⟨v', List.mem_cons_of_mem _ hv⟩
        · simp only [diffObj, h₁, h₂, if_false, Bool.false_eq_true] at h
          rcases List.mem_append.mp h with h | h
          · obtain ⟨op', hop', rfl⟩ := List.mem_map.mp h
            exact ⟨k₁, opPath op', opPath_underSeg _ _,
              Or.inl ⟨v₁, List.mem_cons_self _ _⟩⟩
          · obtain ⟨k', p', hp, hm⟩ := ih₁ t₂ op h
            refine ⟨k', p', hp, ?_⟩
            rcases hm with ⟨v', hv⟩ | ⟨v', hv⟩
            · exact Or.inl ⟨v', List.mem_cons_of_mem _ hv⟩
            · exact Or.inr ⟨v', List.mem_cons_of_mem _ hv⟩

theorem diffArr_paths : ∀ (xs ys : List Json) (i : Nat) (op : PatchOp), op ∈ diffArr xs ys i →
    ∃ j p, opPath op = Seg.idx j :: p := by
  intro xs
  induction xs with
  | nil =>
    intro ys
    induction ys with
    | nil => intro i op h; simp [diffArr] at h
    | cons y u ihy =>
      intro i op h
      simp only [diffArr] at h
      rcases List.mem_cons.mp h with rfl | h
      · exact ⟨i, [], rfl⟩
      · exact ihy (i + 1) op h
  | cons x t ih =>
    intro ys
    induction ys with
    | nil =>
      intro i op h
      simp only [diffArr] at h
      rcases List.mem_append.mp h with h | h
      · exact ih [] (i + 1) op h
      · simp at h
        exact ⟨i, [], by rw [h]; rfl⟩
    | cons y u ihy =>
      intro i op h
      simp only [diffArr] at h
      rcases List.mem_append.mp h with h | h
      · obtain ⟨op', hop', rfl⟩ := List.mem_map.mp h
        exact ⟨i, opPath op', opPath_underSeg _ _⟩
      · exact ih u (i + 1) op h

theorem computeDiff_good (b a : Json) : ∀ op ∈ computeDiff b a, goodOp op = true := by
  intro op h
  cases b <;> cases a <;> simp only [computeDiff] at h
  all_goals try
    (split at h
     · simp at h
     · simp at h; rw [h]; rfl)
  · obtain ⟨j, p, hp⟩ := diffArr_paths _ _ _ op h
    exact goodOp_of_path_cons hp
  · obtain ⟨k, p, hp, _⟩ := diffObj_paths _ _ op h
    exact goodOp_of_path_cons hp

theorem keyHeadGt_of_path {op : PatchOp} {k k₀ : String} {p : List Seg}
    (hp : opPath op = Seg.key k :: p) (hlt : keyLtB k₀ k = true) : keyHeadGt k₀ op = true := by
  unfold keyHeadGt
  rw [hp]
  exact hlt

/-! ### List positioning helpers for the array diff -/

theorem getq_append_len : ∀ (ctx : List Json) (x : Json) (rest : List Json),
    (ctx ++ x :: rest)[ctx.length]? = some x := by
  intro ctx x rest
  induction ctx with
  | nil => simp
  | cons c t ih => simpa using ih

theorem set_append_len : ∀ (ctx : List Json) (x : Json) (rest : List Json) (y : Json),
    (ctx ++ x :: rest).set ctx.length y = ctx ++ y :: rest := by
  intro ctx x rest y
  induction ctx with
  | nil => simp
  | cons c t ih => simpa using ih

theorem eraseIdx_append_len : ∀ (ctx : List Json) (x : Json) (rest : List Json),
    (ctx ++ x :: rest).eraseIdx ctx.length = ctx ++ rest := by
  intro ctx x rest
  induction ctx with
  | nil => simp
  | cons c t ih => simpa [List.eraseIdx] using ih

theorem insertIdxAt_len (ctx : List Json) (y : Json) :
    insertIdxAt ctx.length y ctx = ctx ++ [y] := by
  simp [insertIdxAt, List.take_length, List.drop_length]

/-! ### The round-trip law: applying a computed diff reproduces the target -/

theorem diffObj_spec : ∀ (l₁ l₂ : List (String × Json)),
    SortedKeys l₁ → SortedKeys l₂ →
    (∀ k v₁ v₂, (k, v₁) ∈ l₁ → (k, v₂) ∈ l₂ → applyPatch v₁ (computeDiff v₁ v₂) = v₂) →
    applyPatch (Json.obj l₁) (diffObj l₁ l₂) = Json.obj l₂ := by
  intro l₁
  induction l₁ with
  | nil =>
    intro l₂
    induction l₂ with
    | nil => intro _ _ _; simp [diffObj, applyPatch]
    | cons q u ihq =>
      obtain ⟨k, v⟩ := q
      intro hs₁ hs₂ hIH
      simp only [diffObj]
      rw [applyPatch_cons]
      rw [show applyOp (Json.obj []) (PatchOp.add [Seg.key k] v) =
          Json.obj ((k, v) :: []) from rfl]
      have hk : ∀ op ∈ diffObj [] u, keyHeadGt k op = true := by
        intro op hop
        obtain ⟨k', p', hp, hm⟩ := diffObj_paths [] u op hop
        rcases hm with ⟨v', hv⟩ | ⟨v', hv⟩
        · simp at hv
        · exact keyHeadGt_of_path hp (sorted_head_lt hs₂ hv)
      rw [applyPatch_obj_consfr v hk []]
      rw [ihq List.Pairwise.nil (sortedKeys_tail hs₂)
        (fun k' v₁ v₂ hm₁ _ => absurd hm₁ (List.not_mem_nil _))]
      rfl
  | cons hd t₁ ih₁ =>
    obtain ⟨k₁, v₁⟩ := hd
    intro l₂
    induction l₂ with
    | nil =>
      intro hs₁ _ _
      simp only [diffObj]
      rw [applyPatch_cons]
      rw [show applyOp (Json.obj ((k₁, v₁) :: t₁)) (PatchOp.remove [Seg.key k₁]) =
          Json.obj t₁ from by simp [applyOp, removeAt, objRemove_head_self]]
      exact ih₁ [] (sortedKeys_tail hs₁) List.Pairwise.nil
        (fun k' v₁' v₂' _ hm₂ => absurd hm₂ (List.not_mem_nil _))
    | cons q t₂ ih₂ =>
      obtain ⟨k₂, v₂⟩ := q
      intro hs₁ hs₂ hIH
      by_cases h₁ : keyLtB k₁ k₂ = true
      · simp only [diffObj, h₁, if_true]
        rw [applyPatch_cons]
        rw [show applyOp (Json.obj ((k₁, v₁) :: t₁)) (PatchOp.remove [Seg.key k₁]) =
            Json.obj t₁ from by simp [applyOp, removeAt, objRemove_head_self]]
        exact ih₁ ((k₂, v₂) :: t₂) (sortedKeys_tail hs₁) hs₂
          (fun k' v₁' v₂' hm₁ hm₂ => hIH k' v₁' v₂' (List.mem_cons_of_mem _ hm₁) hm₂)
      · by_cases h₂ : keyLtB k₂ k₁ = true
        · simp only [diffObj, h₁, h₂, if_true, if_false, Bool.false_eq_true]
          rw [applyPatch_cons]
          rw [show applyOp (Json.obj ((k₁, v₁) :: t₁)) (PatchOp.add [Seg.key k₂] v₂) =
              Json.obj ((k₂, v₂) :: (k₁, v₁) :: t₁) from by
            simp [applyOp, addAt, objSet_head_lt _ _ _ h₂]]
          have hk : ∀ op ∈ diffObj ((k₁, v₁) :: t₁) t₂, keyHeadGt k₂ op = true := by
            intro op hop
            obtain ⟨k', p', hp, hm⟩ := diffObj_paths _ _ op hop
            rcases hm with ⟨v', hv⟩ | ⟨v', hv⟩
            · rcases List.mem_cons.mp hv with heq | hv
              · have hk' : k' = k₁ := congrArg Prod.fst heq
                exact keyHeadGt_of_path hp (by rw [hk']; exact h₂)
              · exact keyHeadGt_of_path hp (keyLt_trans h₂ (sorted_head_lt hs₁ hv))
            · exact keyHeadGt_of_path hp (sorted_head_lt hs₂ hv)
          rw [applyPatch_obj_consfr v₂ hk ((k₁, v₁) :: t₁)]
          rw [ih₂ hs₁ (sortedKeys_tail hs₂)
            (fun k' v₁' v₂' hm₁ hm₂ => hIH k' v₁' v₂' hm₁ (List.mem_cons_of_mem _ hm₂))]
          rfl
        · have hk12 : k₁ = k₂ := keyLt_antisymm (by simpa using h₁) (by simpa using h₂)
          subst hk12
          simp only [diffObj, keyLt_irrefl, Bool.false_eq_true, if_false]
          rw [applyPatch_append]
          rw [applyPatch_obj_under (computeDiff_good v₁ v₂) hs₁
            (show objGet k₁ ((k₁, v₁) :: t₁) = some v₁ from by simp [objGet])]
          rw [hIH k₁ v₁ v₂ (List.mem_cons_self _ _) (List.mem_cons_self _ _)]
          rw [objSet_head_self]
          have hk : ∀ op ∈ diffObj t₁ t₂, keyHeadGt k₁ op = true := by
            intro op hop
            obtain ⟨k', p', hp, hm⟩ := diffObj_paths _ _ op hop
            rcases hm with ⟨v', hv⟩ | ⟨v', hv⟩
            · exact keyHeadGt_of_path hp (sorted_head_lt hs₁ hv)
            · exact keyHeadGt_of_path hp (sorted_head_lt hs₂ hv)
          rw [applyPatch_obj_consfr v₂ hk t₁]
          rw [ih₁ t₂ (sortedKeys_tail hs₁) (sortedKeys_tail hs₂)
            (fun k' v₁' v₂' hm₁ hm₂ =>
              hIH k' v₁' v₂' (List.mem_cons_of_mem _ hm₁) (List.mem_cons_of_mem _ hm₂))]
          rfl

theorem diffArr_spec : ∀ (xs ys ctx : List Json),
    (∀ x y, x ∈ xs → y ∈ ys → applyPatch x (computeDiff x y) = y) →
    applyPatch (Json.arr (ctx ++ xs)) (diffArr xs ys ctx.length) = Json.arr (ctx ++ ys) := by
  intro xs
  induction xs with
  | nil =>
    intro ys
    induction ys with
    | nil => intro ctx _; simp [diffArr, applyPatch]
    | cons y u ihy =>
      intro ctx hIH
      simp only [diffArr]
      rw [applyPatch_cons]
      rw [show applyOp (Json.arr (ctx ++ [])) (PatchOp.add [Seg.idx ctx.length] y) =
          Json.arr (ctx ++ [y]) from by
        simp [applyOp, addAt, List.append_nil, insertIdxAt_len]]
      have h2 := ihy (ctx ++ [y]) (fun x y' hx _ => absurd hx (List.not_mem_nil x))
      rw [show (ctx ++ [y]).length = ctx.length + 1 from by simp] at h2
      simp only [List.append_nil] at h2 ⊢
      rw [h2]
      simp
  | cons x t ih =>
    intro ys
    induction ys with
    | nil =>
      intro ctx hIH
      simp only [diffArr]
      rw [applyPatch_append]
      have h2 := ih [] (ctx ++ [x]) (fun a b _ hb => absurd hb (List.not_mem_nil b))
      rw [show (ctx ++ [x]).length = ctx.length + 1 from by simp] at h2
      simp only [List.append_nil] at h2
      rw [show ctx ++ x :: t = (ctx ++ [x]) ++ t from by simp]
      rw [h2]
      rw [applyPatch_cons]
      rw [show applyOp (Json.arr (ctx ++ [x])) (PatchOp.remove [Seg.idx ctx.length]) =
          Json.arr ctx from by
        have he := eraseIdx_append_len ctx x []
        simp only [List.append_nil] at he
        simp [applyOp, removeAt, he]]
      simp [applyPatch]
    | cons y u ihy =>
      intro ctx hIH
      simp only [diffArr]
      rw [applyPatch_append]
      rw [applyPatch_arr_under (computeDiff_good x y) (getq_append_len ctx x t)]
      rw [hIH x y (List.mem_cons_self _ _) (List.mem_cons_self _ _)]
      rw [set_append_len]
      have h2 := ih u (ctx ++ [y])
        (fun a b ha hb => hIH a b (List.mem_cons_of_mem _ ha) (List.mem_cons_of_mem _ hb))
      rw [show (ctx ++ [y]).length = ctx.length + 1 from by simp] at h2
      rw [show ctx ++ y :: t = (ctx ++ [y]) ++ t from by simp]
      rw [h2]
      simp

theorem roundtrip_aux : ∀ (n : Nat) (b a : Json), sizeOf b + sizeOf a ≤ n →
    wf b = true → wf a = true → applyPatch b (computeDiff b a) = a := by
  intro n
  induction n with
  | zero =>
    intro b a hs _ _
    exfalso
    have hb : 0 < sizeOf b := by cases b <;> simp <;> omega
    omega
  | succ n ih =>
    intro b a hs hb ha
    cases b <;> cases a
    all_goals try {
      simp only [computeDiff]
      split
      · rename_i hj
        exact jeq_eq hj
      · rfl }
    · -- arrays
      rename_i xs ys
      have hmem : ∀ x y, x ∈ xs → y ∈ ys → applyPatch x (computeDiff x y) = y := by
        intro x y hx hy
        have hx' := List.sizeOf_lt_of_mem hx
        have hy' := List.sizeOf_lt_of_mem hy
        apply ih x y ?_ (wf_arr hb x hx) (wf_arr ha y hy)
        simp at hs
        omega
      have hd := diffArr_spec xs ys [] hmem
      simp only [computeDiff]
      simpa using hd
    · -- objects
      rename_i l₁ l₂
      obtain ⟨hs₁, hwf₁⟩ := wf_obj hb
      obtain ⟨hs₂, hwf₂⟩ := wf_obj ha
      have hmem : ∀ k v₁ v₂, (k, v₁) ∈ l₁ → (k, v₂) ∈ l₂ →
          applyPatch v₁ (computeDiff v₁ v₂) = v₂ := by
        intro k v₁ v₂ h₁ h₂
        have h₁' := List.sizeOf_lt_of_mem h₁
        have h₂' := List.sizeOf_lt_of_mem h₂
        apply ih v₁ v₂ ?_ (hwf₁ _ h₁) (hwf₂ _ h₂)
        simp at hs h₁' h₂'
        omega
      have hd := diffObj_spec l₁ l₂ hs₁ hs₂ hmem
      simp only [computeDiff]
      exact hd

/-- Round-trip law of the diff/patch pair: applying the patch sequence the
diff engine produces for `(before, after)` to `before` yields `after`, for
all well-formed trees. -/
theorem computeDiff_roundtrip (before after : Json) (hb : wf before = true)
    (ha : wf after = true) : applyPatch before (computeDiff before after) = after :=
  roundtrip_aux (sizeOf before + sizeOf after) before after le_rfl hb ha

/-! ### Remove at a missing path is a no-op -/

theorem eraseIdx_oob : ∀ (xs : List Json) (i : Nat), xs[i]? = none → xs.eraseIdx i = xs := by
  intro xs
  induction xs with
  | nil => intro i _; simp
  | cons x t ih =>
    intro i h
    cases i with
    | zero => simp at h
    | succ j =>
      simp only [List.getElem?_cons_succ] at h
      simp [List.eraseIdx, ih j h]

theorem getq_mem : ∀ (xs : List Json) (i : Nat) (c : Json), xs[i]? = some c → c ∈ xs := by
  intro xs
  induction xs with
  | nil => intro i c h; simp at h
  | cons x t ih =>
    intro i c h
    cases i with
    | zero => simp at h; rw [h]; exact List.mem_cons_self _ _
    | succ j =>
      simp only [List.getElem?_cons_succ] at h
      exact List.mem_cons_of_mem _ (ih j c h)

theorem removeAt_missing : ∀ (p : List Seg) (d : Json), wf d = true →
    getPath d p = none → removeAt d p = d := by
  intro p
  induction p with
  | nil => intro d _ hpath; simp [getPath] at hpath
  | cons s p' ih =>
    intro d hwf hpath
    cases s with
    | key k =>
      cases d with
      | obj l =>
        rcases hg : objGet k l with _ | c
        · cases p' with
          | nil => simp [removeAt, objRemove_of_objGet_none hg]
          | cons q₁ q₂ => simp [removeAt, hg]
        · simp only [getPath, hg] at hpath
          cases p' with
          | nil => simp [getPath] at hpath
          | cons q₁ q₂ =>
            obtain ⟨hsort, hmem⟩ := wf_obj hwf
            have hcwf : wf c = true := hmem (k, c) (objGet_some_mem hg)
            simp [removeAt, hg, ih c hcwf hpath, objSet_of_objGet_some hsort hg]
      | null => cases p' <;> simp [removeAt]
      | bool b => cases p' <;> simp [removeAt]
      | num n => cases p' <;> simp [removeAt]
      | str s => cases p' <;> simp [removeAt]
      | arr xs => cases p' <;> simp [removeAt]
    | idx i =>
      cases d with
      | arr xs =>
        rcases hg : xs[i]? with _ | c
        · cases p' with
          | nil => simp [removeAt, eraseIdx_oob xs i hg]
          | cons q₁ q₂ => simp [removeAt, hg]
        · simp only [getPath, hg] at hpath
          cases p' with
          | nil => simp [getPath] at hpath
          | cons q₁ q₂ =>
            have hcwf : wf c = true := wf_arr hwf c (getq_mem xs i c hg)
            simp [removeAt, hg, ih c hcwf hpath, set_getq_self xs i c hg]
      | null => cases p' <;> simp [removeAt]
      | bool b => cases p' <;> simp [removeAt]
      | num n => cases p' <;> simp [removeAt]
      | str s => cases p' <;> simp [removeAt]
      | obj l => cases p' <;> simp [removeAt]

/-! ### The versioned-record machine

The plugin's state, per record: the persisted document and the slice of
the history collection for that record (every query in the source filters
on `parent: this._id`, so one record's slice is closed under all the
operations).  Options are the defaults (`versionKey = 'documentVersion'`,
`trackDate`/`addDateToDocument` off). -/

/-- The version key the plugin adds to documents (the options default,
src/src/index.ts lines 6-7). -/
def versionKey : String := "documentVersion"

/-- A stored change-set (history document): the schema of
src/src/index.ts lines 22-33 — version number, patch list
(`{op, path, value}` entries), caller metadata stored verbatim. -/
structure ChangeSet where
  version : Int
  patches : List PatchOp
  metadata : Option Json

/-- One record's visible store: its persisted document (`none` when
deleted or never saved) and its history slice, in insertion order. -/
structure SysState where
  persisted : Option Json
  hist : List ChangeSet

/-- Read the document's version field as a number (absent or non-numeric
gives `none`; the schema types the field as Number). -/
def getVer (d : Json) : Option Int :=
  match d with
  | Json.obj l =>
    match objGet versionKey l with
    | some (Json.num n) => some n
    | _ => none
  | _ => none

/-- JavaScript truthiness of `this[versionKey]`, the branch test
`!this[versionKey]` of the pre-save hook. -/
def truthyVer (d : Json) : Bool :=
  match d with
  | Json.obj l =>
    match objGet versionKey l with
    | some (Json.num n) => decide (n ≠ 0)
    | some (Json.str s) => decide (s ≠ "")
    | some (Json.bool b) => b
    | some Json.null => false
    | some (Json.arr _) => true
    | some (Json.obj _) => true
    | none => false
  | _ => false

/-- `this[versionKey] = n`. -/
def setVer (d : Json) (n : Int) : Json :=
  match d with
  | Json.obj l => Json.obj (objSet versionKey (Json.num n) l)
  | _ => d

/-- `(this as any)[versionKey]++` (src/src/index.ts line 85); the field is
Number-typed, so only the numeric case arises. -/
def incVer (d : Json) : Json :=
  match d with
  | Json.obj l =>
    match objGet versionKey l with
    | some (Json.num n) => Json.obj (objSet versionKey (Json.num (n + 1)) l)
    | _ => d
  | _ => d

/-- Insertion step of `.sort({version: 1})`. -/
def insertByVersion (c : ChangeSet) : List ChangeSet → List ChangeSet
  | [] => [c]
  | d :: t => if c.version ≤ d.version then c :: d :: t else d :: insertByVersion c t

/-- `.sort({version: 1})` on a history query result. -/
def sortByVersion : List ChangeSet → List ChangeSet
  | [] => []
  | c :: t => insertByVersion c (sortByVersion t)

/-- Concatenating the patch lists of a change-set sequence, the
composition used by every replay (src/src/index.ts lines 96-99, 151-154). -/
def concatPatches (cs : List ChangeSet) : List PatchOp :=
  (cs.map (fun c => c.patches)).join

/-- `.sort({version: -1}).limit(1)`: the change-set with the greatest
version in a list (rollback's previous-version query). -/
def maxByVersion : List ChangeSet → Option ChangeSet
  | [] => none
  | c :: t =>
    match maxByVersion t with
    | none => some c
    | some m => if c.version < m.version then some m else some c

/-- `deleteOne({parent, version: w})`: removes one stored change-set. -/
def deleteOneVersion (w : Int) : List ChangeSet → List ChangeSet
  | [] => []
  | c :: t => if c.version = w then t else c :: deleteOneVersion w t

/-- The `version < current` filter of rollback's query; comparison against
an absent version matches nothing. -/
def ltVer (w : Option Int) (c : ChangeSet) : Bool :=
  match w with
  | some n => decide (c.version < n)
  | none => false

/-- The pre-save hook (the plugin variant with the backfill branch,
src/src/index.test.ts lines 229-330; src/src/index.ts lines 51-123 is the
same without the backfill case), combined with the persistence write that
follows it.  Three-state decision on (isNew, truthiness of the version
field); metadata comes from `opts?.metadata`. -/
def preSave (s : SysState) (doc : Json) (isNew : Bool) (meta : Option Json) : SysState :=
  if isNew && !truthyVer doc then
    let d := setVer doc 1
    { persisted := some d
      hist := s.hist ++ [⟨1, computeDiff (Json.obj []) d, meta⟩] }
  else if !isNew && !truthyVer doc then
    match s.persisted with
    | none => { s with persisted := some doc }
    | some oldDoc =>
      let d := setVer doc 2
      { persisted := some d
        hist := s.hist ++ [⟨1, computeDiff (Json.obj []) oldDoc, meta⟩,
                           ⟨2, computeDiff oldDoc d, meta⟩] }
  else
    let d := incVer doc
    let prev := applyPatch (Json.obj []) (concatPatches (sortByVersion s.hist))
    { persisted := some d
      hist := s.hist ++ [⟨(getVer d).getD 0, computeDiff prev d, meta⟩] }

/-- `doc.save(opts)`: the pre-save hook unless `disablePreSaveHook` is
set, then the store write. -/
def doSave (s : SysState) (doc : Json) (isNew : Bool) (meta : Option Json)
    (disableHook : Bool) : SysState :=
  if disableHook then { s with persisted := some doc }
  else preSave s doc isNew meta

inductive RollbackResult where
  | deleted : RollbackResult
  | ok : Json → RollbackResult
  | noPrevious : RollbackResult

/-- `schema.methods.rollback` (src/src/index.ts lines 166-227).  At
version 1: delete the record and the version-1 change-set.  Otherwise:
take the stored change-set of greatest version below the current one,
apply its forward patches onto the live document, set the version to that
change-set's version, persist with the hook disabled and delete the
change-set at (that version + 1). -/
def doRollback (s : SysState) (doc : Json) : SysState × RollbackResult :=
  if getVer doc = some 1 then
    ({ persisted := none, hist := deleteOneVersion 1 s.hist }, RollbackResult.deleted)
  else
    match maxByVersion (s.hist.filter (ltVer (getVer doc))) with
    | none => (s, RollbackResult.noPrevious)
    | some prev =>
      let d := setVer (applyPatch doc prev.patches) prev.version
      ({ persisted := some d, hist := deleteOneVersion (prev.version + 1) s.hist },
        RollbackResult.ok d)

inductive GetVersionResult where
  | ok : Json → GetVersionResult
  | invalidVersion : GetVersionResult

/-- `versionNumber > this[versionKey]` with JavaScript comparison
semantics: a number compared against undefined is false, so an absent
version field never trips the upper bound. -/
def gtVer (vn : Int) (w : Option Int) : Bool :=
  match w with
  | some n => decide (vn > n)
  | none => false

/-- `schema.methods.getVersion` (src/src/index.ts lines 125-164): bounds
check `versionNumber < 1 || versionNumber > this[versionKey]`, then query
`version ≤ versionNumber` ascending, concatenate patches, apply to `{}`.
The method only reads; it is a pure function of the store. -/
def getVersion (s : SysState) (doc : Json) (versionNumber : Int) : GetVersionResult :=
  if versionNumber < 1 || gtVer versionNumber (getVer doc) then
    GetVersionResult.invalidVersion
  else
    GetVersionResult.ok (applyPatch (Json.obj [])
      (concatPatches (sortByVersion
        (s.hist.filter (fun c => decide (c.version ≤ versionNumber))))))

/-- Modelled from the spec: `Snapshot(V)` — the result of replaying the
stored change-sets with version ≤ V, in ascending version order, starting
from the empty value (spec section 3: the log is the sole source of
historical truth). -/
def snapshotAt (hist : List ChangeSet) (v : Int) : Json :=
  applyPatch (Json.obj [])
    (concatPatches (sortByVersion (hist.filter (fun c => decide (c.version ≤ v)))))

/-- External operations on one record: a versioned save (the caller loads
the record, replaces domain fields, and calls `save` with optional
metadata), a rollback, and the creation of pre-versioning legacy data (a
save with the pre-save hook disabled, as the repository's tests create
it). -/
inductive Op where
  | save : Json → Option Json → Op
  | rollback : Op
  | legacyCreate : Json → Op

/-- Domain payloads are documents: objects that do not carry the reserved
version field (that field belongs to the plugin). -/
def payloadOk : Json → Bool
  | Json.obj l => (objGet versionKey l).isNone
  | _ => false

def opOk : Op → Bool
  | Op.save f _ => payloadOk f
  | Op.legacyCreate f => payloadOk f
  | Op.rollback => true

def runOp (s : SysState) : Op → SysState
  | Op.save f meta =>
    match s.persisted with
    | none => doSave s f true meta false
    | some p =>
      let doc := match getVer p with
        | some n => setVer f n
        | none => f
      doSave s doc false meta false
  | Op.rollback =>
    match s.persisted with
    | none => s
    | some p => (doRollback s p).1
  | Op.legacyCreate f =>
    match s.persisted with
    | none => doSave s f true none true
    | some _ => s

def initState : SysState := ⟨none, []⟩

def run (ops : List Op) : SysState := ops.foldl runOp initState

/-- The record's current version (0 when the record is absent or carries
no numeric version). -/
def curVer (s : SysState) : Int :=
  match s.persisted with
  | none => 0
  | some p => (getVer p).getD 0

/-- The contiguous version run 1..v. -/
def versRange (v : Int) : List Int :=
  (List.range' 1 v.toNat).map (Nat.cast : Nat → Int)

/-! ### Support lemmas for the version-log invariants -/

theorem keyHeaded_of_path {op : PatchOp} {k : String} {p : List Seg}
    (h : opPath op = Seg.key k :: p) : keyHeaded op = true := by
  unfold keyHeaded
  rw [h]

theorem computeDiff_objs_keyHeaded (l₁ l₂ : List (String × Json)) :
    ∀ op ∈ computeDiff (Json.obj l₁) (Json.obj l₂), keyHeaded op = true := by
  intro op h
  simp only [computeDiff] at h
  obtain ⟨k, p, hp, _⟩ := diffObj_paths _ _ op h
  exact keyHeaded_of_path hp

theorem applyPatch_obj_keyHeaded {ops : List PatchOp}
    (h : ∀ op ∈ ops, keyHeaded op = true) :
    ∀ l : List (String × Json), ∃ l', applyPatch (Json.obj l) ops = Json.obj l' := by
  induction ops with
  | nil => intro l; exact ⟨l, rfl⟩
  | cons op rest ih =>
    intro l
    obtain ⟨l', hl'⟩ := applyOp_obj_shape (h op (List.mem_cons_self _ _)) l
    obtain ⟨l'', hl''⟩ := ih (fun o ho => h o (List.mem_cons_of_mem _ ho)) l'
    exact ⟨l'', by rw [applyPatch_cons, hl', hl'']⟩

theorem insertByVersion_mem {x c : ChangeSet} : ∀ {t : List ChangeSet},
    x ∈ insertByVersion c t → x = c ∨ x ∈ t := by
  intro t
  induction t with
  | nil => intro h; simp [insertByVersion] at h; exact Or.inl h
  | cons d u ih =>
    intro h
    simp only [insertByVersion] at h
    split at h
    · rcases List.mem_cons.mp h with rfl | h
      · exact Or.inl rfl
      · exact Or.inr h
    · rcases List.mem_cons.mp h with rfl | h
      · exact Or.inr (List.mem_cons_self _ _)
      · rcases ih h with h | h
        · exact Or.inl h
        · exact Or.inr (List.mem_cons_of_mem _ h)

theorem sortByVersion_mem {x : ChangeSet} : ∀ {l : List ChangeSet},
    x ∈ sortByVersion l → x ∈ l := by
  intro l
  induction l with
  | nil => intro h; simp [sortByVersion] at h
  | cons c t ih =>
    intro h
    simp only [sortByVersion] at h
    rcases insertByVersion_mem h with rfl | h
    · exact List.mem_cons_self _ _
    · exact List.mem_cons_of_mem _ (ih h)

theorem concatPatches_mem {op : PatchOp} {cs : List ChangeSet}
    (h : op ∈ concatPatches cs) : ∃ c ∈ cs, op ∈ c.patches := by
  unfold concatPatches at h
  rw [List.mem_join] at h
  obtain ⟨l, hl, hop⟩ := h
  obtain ⟨c, hc, rfl⟩ := List.mem_map.mp hl
  exact ⟨c, hc, hop⟩

theorem deleteOne_subset {c : ChangeSet} {w : Int} : ∀ {l : List ChangeSet},
    c ∈ deleteOneVersion w l → c ∈ l := by
  intro l
  induction l with
  | nil => intro h; simp [deleteOneVersion] at h
  | cons d t ih =>
    intro h
    simp only [deleteOneVersion] at h
    split at h
    · exact List.mem_cons_of_mem _ h
    · rcases List.mem_cons.mp h with rfl | h
      · exact List.mem_cons_self _ _
      · exact List.mem_cons_of_mem _ (ih h)

theorem deleteOne_removed_version {c : ChangeSet} {w : Int} : ∀ {l : List ChangeSet},
    c ∈ l → c ∉ deleteOneVersion w l → c.version = w := by
  intro l
  induction l with
  | nil => intro h _; simp at h
  | cons d t ih =>
    intro hmem hout
    simp only [deleteOneVersion] at hout
    by_cases hd : d.version = w
    · rw [if_pos hd] at hout
      rcases List.mem_cons.mp hmem with rfl | hmem
      · exact hd
      · exact absurd hmem hout
    · rw [if_neg hd] at hout
      rcases List.mem_cons.mp hmem with rfl | hmem
      · exact absurd (List.mem_cons_self _ _) hout
      · exact ih hmem (fun hin => hout (List.mem_cons_of_mem _ hin))

theorem maxByVersion_cons_none {d : ChangeSet} {t : List ChangeSet}
    (h : maxByVersion t = none) : maxByVersion (d :: t) = some d := by
  simp [maxByVersion, h]

theorem maxByVersion_cons_some_lt {d m : ChangeSet} {t : List ChangeSet}
    (h : maxByVersion t = some m) (hlt : d.version < m.version) :
    maxByVersion (d :: t) = some m := by
  simp [maxByVersion, h, hlt]

theorem maxByVersion_cons_some_ge {d m : ChangeSet} {t : List ChangeSet}
    (h : maxByVersion t = some m) (hlt : ¬ d.version < m.version) :
    maxByVersion (d :: t) = some d := by
  simp [maxByVersion, h, hlt]

theorem maxByVersion_mem {c : ChangeSet} : ∀ {l : List ChangeSet},
    maxByVersion l = some c → c ∈ l := by
  intro l
  induction l with
  | nil => intro h; simp [maxByVersion] at h
  | cons d t ih =>
    intro h
    rcases hm : maxByVersion t with _ | m
    · rw [maxByVersion_cons_none hm] at h
      simp at h
      rw [← h]
      exact List.mem_cons_self _ _
    · by_cases hlt : d.version < m.version
      · rw [maxByVersion_cons_some_lt hm hlt] at h
        simp at h
        subst h
        exact List.mem_cons_of_mem _ (ih hm)
      · rw [maxByVersion_cons_some_ge hm hlt] at h
        simp at h
        rw [← h]
        exact List.mem_cons_self _ _

theorem maxByVersion_ge : ∀ {l : List ChangeSet} {c : ChangeSet},
    maxByVersion l = some c → ∀ d ∈ l, d.version ≤ c.version := by
  intro l
  induction l with
  | nil => intro c h; simp [maxByVersion] at h
  | cons e t ih =>
    intro c h d hd
    rcases hm : maxByVersion t with _ | m
    · rw [maxByVersion_cons_none hm] at h
      simp at h
      have ht : t = [] := by
        cases t with
        | nil => rfl
        | cons t₀ tt =>
          exfalso
          rcases hm₂ : maxByVersion tt with _ | m₂
          · rw [maxByVersion_cons_none hm₂] at hm; simp at hm
          · by_cases hl₂ : t₀.version < m₂.version
            · rw [maxByVersion_cons_some_lt hm₂ hl₂] at hm; simp at hm
            · rw [maxByVersion_cons_some_ge hm₂ hl₂] at hm; simp at hm
      subst ht
      rcases List.mem_cons.mp hd with rfl | hd
      · rw [h]
      · simp at hd
    · by_cases hlt : e.version < m.version
      · rw [maxByVersion_cons_some_lt hm hlt] at h
        simp at h
        subst h
        rcases List.mem_cons.mp hd with rfl | hd
        · exact le_of_lt hlt
        · exact ih hm d hd
      · rw [maxByVersion_cons_some_ge hm hlt] at h
        simp at h
        subst h
        rcases List.mem_cons.mp hd with rfl | hd
        · exact le_rfl
        · exact le_trans (ih hm d hd) (by omega)

theorem maxByVersion_of_mem {x : ChangeSet} : ∀ {l : List ChangeSet},
    x ∈ l → ∃ c, maxByVersion l = some c := by
  intro l
  induction l with
  | nil => intro h; simp at h
  | cons d t _ =>
    intro _
    rcases hm : maxByVersion t with _ | m
    · exact ⟨d, maxByVersion_cons_none hm⟩
    · by_cases hlt : d.version < m.version
      · exact ⟨m, maxByVersion_cons_some_lt hm hlt⟩
      · exact ⟨d, maxByVersion_cons_some_ge hm hlt⟩

theorem filter_ltVer_none (l : List ChangeSet) : l.filter (ltVer none) = [] := by
  induction l with
  | nil => rfl
  | cons c t ih => simp [List.filter, ltVer, ih]

/-! ### The contiguous version run -/

theorem versRange_zero : versRange 0 = [] := rfl

theorem versRange_one : versRange 1 = [1] := rfl

theorem versRange_mem {x v : Int} : x ∈ versRange v ↔ 1 ≤ x ∧ x ≤ v := by
  unfold versRange
  simp only [List.mem_map, List.mem_range'_1]
  constructor
  · rintro ⟨k, hk, hkx⟩
    omega
  · intro hx
    exact ⟨x.toNat, by omega, by omega⟩

theorem versRange_concat {n : Int} (h : 0 ≤ n) :
    versRange (n + 1) = versRange n ++ [n + 1] := by
  unfold versRange
  have ht : (n + 1).toNat = n.toNat + 1 := by omega
  rw [ht, List.range'_concat, List.map_append]
  congr 1
  simp
  omega

/-! ### Document/version field helpers -/

theorem payloadOk_obj {f : Json} (hf : payloadOk f = true) :
    ∃ lf, f = Json.obj lf ∧ objGet versionKey lf = none := by
  cases f with
  | obj l =>
    simp only [payloadOk, Option.isNone_iff_eq_none] at hf
    exact ⟨l, rfl, hf⟩
  | null => simp [payloadOk] at hf
  | bool b => simp [payloadOk] at hf
  | num n => simp [payloadOk] at hf
  | str s => simp [payloadOk] at hf
  | arr xs => simp [payloadOk] at hf

theorem getVer_obj_none {l : List (String × Json)} (h : objGet versionKey l = none) :
    getVer (Json.obj l) = none := by
  simp [getVer, h]

theorem truthyVer_payload {f : Json} (hf : payloadOk f = true) : truthyVer f = false := by
  obtain ⟨lf, rfl, hn⟩ := payloadOk_obj hf
  simp [truthyVer, hn]

theorem setVer_obj (l : List (String × Json)) (n : Int) :
    setVer (Json.obj l) n = Json.obj (objSet versionKey (Json.num n) l) := rfl

theorem getVer_setVer_obj (l : List (String × Json)) (n : Int) :
    getVer (setVer (Json.obj l) n) = some n := by
  simp [setVer, getVer, objGet_objSet_self]

theorem truthyVer_setVer_obj (l : List (String × Json)) {n : Int} (hn : n ≠ 0) :
    truthyVer (setVer (Json.obj l) n) = true := by
  simp [setVer, truthyVer, objGet_objSet_self, hn]

theorem getVer_obj_some {l : List (String × Json)} {n : Int}
    (h : getVer (Json.obj l) = some n) : objGet versionKey l = some (Json.num n) := by
  rcases hg : objGet versionKey l with _ | v
  · simp [getVer, hg] at h
  · cases v <;> simp [getVer, hg] at h
    rw [h]

theorem incVer_obj {l : List (String × Json)} {n : Int}
    (h : objGet versionKey l = some (Json.num n)) :
    incVer (Json.obj l) = Json.obj (objSet versionKey (Json.num (n + 1)) l) := by
  simp [incVer, h]

theorem deleteOne_on_range : ∀ (hist : List ChangeSet) (A : List Int) (w : Int),
    hist.map (fun c => c.version) = A ++ [w] → w ∉ A →
    (deleteOneVersion w hist).map (fun c => c.version) = A ∧
    (deleteOneVersion w hist).length = hist.length - 1 := by
  intro hist
  induction hist with
  | nil => intro A w h _; simp at h
  | cons c t ih =>
    intro A w h hw
    cases A with
    | nil =>
      simp only [List.map_cons, List.nil_append, List.cons.injEq] at h
      obtain ⟨hc, ht⟩ := h
      have ht' : t = [] := by
        cases t with
        | nil => rfl
        | cons x u => simp at ht
      subst ht'
      simp [deleteOneVersion, hc]
    | cons a A' =>
      simp only [List.map_cons, List.cons_append, List.cons.injEq] at h
      obtain ⟨hca, ht⟩ := h
      have hwa : w ≠ a := fun hh => hw (by rw [hh]; exact List.mem_cons_self _ _)
      have hcw : ¬ c.version = w := by rw [hca]; exact fun hh => hwa hh.symm
      obtain ⟨ih₁, ih₂⟩ := ih A' w ht (fun hin => hw (List.mem_cons_of_mem _ hin))
      have htlen : t.length = A'.length + 1 := by
        have := congrArg List.length ht
        simpa using this
      rw [show deleteOneVersion w (c :: t) = c :: deleteOneVersion w t from by
        simp [deleteOneVersion, hcw]]
      constructor
      · simp [ih₁, hca]
      · simp only [List.length_cons, ih₂]
        omega

/-! ### Shapes taken by rollback -/

theorem rollback_v1 (s : SysState) (doc : Json) (h : getVer doc = some 1) :
    doRollback s doc = ({ persisted := none, hist := deleteOneVersion 1 s.hist },
      RollbackResult.deleted) := by
  simp [doRollback, h]

theorem rollback_none (s : SysState) (doc : Json) (h : getVer doc = none) :
    doRollback s doc = (s, RollbackResult.noPrevious) := by
  have hne : ¬ (getVer doc = some 1) := by rw [h]; simp
  unfold doRollback
  rw [if_neg hne, h, filter_ltVer_none]
  rfl

theorem doRollback_else {s : SysState} {doc : Json} {prev : ChangeSet}
    (hne : ¬ getVer doc = some 1)
    (hmax : maxByVersion (s.hist.filter (ltVer (getVer doc))) = some prev) :
    doRollback s doc =
      ({ persisted := some (setVer (applyPatch doc prev.patches) prev.version),
         hist := deleteOneVersion (prev.version + 1) s.hist },
       RollbackResult.ok (setVer (applyPatch doc prev.patches) prev.version)) := by
  unfold doRollback
  rw [if_neg hne, hmax]

theorem rollback_gt (s : SysState) (doc : Json) (n : Int) (hver : getVer doc = some n)
    (hn : 2 ≤ n) (hh : s.hist.map (fun c => c.version) = versRange n) :
    ∃ prev, prev ∈ s.hist ∧ prev.version = n - 1 ∧
      maxByVersion (s.hist.filter (ltVer (getVer doc))) = some prev ∧
      doRollback s doc =
        ({ persisted := some (setVer (applyPatch doc prev.patches) (n - 1)),
           hist := deleteOneVersion n s.hist },
         RollbackResult.ok (setVer (applyPatch doc prev.patches) (n - 1))) := by
  have hmem : ∃ c ∈ s.hist, c.version = n - 1 := by
    have hx : (n - 1) ∈ versRange n := versRange_mem.mpr ⟨by omega, by omega⟩
    rw [← hh] at hx
    obtain ⟨c, hc, hcv⟩ := List.mem_map.mp hx
    exact ⟨c, hc, hcv⟩
  obtain ⟨c, hc, hcv⟩ := hmem
  have hcf : c ∈ s.hist.filter (ltVer (getVer doc)) := by
    rw [List.mem_filter]
    refine ⟨hc, ?_⟩
    simp only [ltVer, hver, decide_eq_true_eq]
    omega
  obtain ⟨prev, hprev⟩ := maxByVersion_of_mem hcf
  have hprevf := maxByVersion_mem hprev
  have hprevh : prev ∈ s.hist := List.mem_of_mem_filter hprevf
  have hprevlt : prev.version < n := by
    have hltv := (List.mem_filter.mp hprevf).2
    simpa [ltVer, hver] using hltv
  have hprevge : (n - 1 : Int) ≤ prev.version := by
    have hge := maxByVersion_ge hprev c hcf
    omega
  have hpv : prev.version = n - 1 := by omega
  refine ⟨prev, hprevh, hpv, hprev, ?_⟩
  have hne : ¬ (getVer doc = some 1) := by rw [hver]; simp; omega
  have harith : prev.version + 1 = n := by omega
  rw [doRollback_else hne hprev, harith, hpv]

/-! ### The reachable-state invariant of the version log -/

/-- All stored patches act below an object key (none re-types the
document root); a consequence of every change-set being a diff of two
objects. -/
def KeyHeadedHist (hist : List ChangeSet) : Prop :=
  ∀ c ∈ hist, ∀ op ∈ c.patches, keyHeaded op = true

/-- The version-log invariant: patches are key-headed, and either the
record is absent with an empty log, or it is a pre-versioning object with
an empty log, or it carries numeric version n ≥ 1 and the log holds
exactly versions 1..n in ascending insertion order. -/
def Inv (s : SysState) : Prop :=
  KeyHeadedHist s.hist ∧
  ((s.persisted = none ∧ s.hist = []) ∨
   (∃ l, s.persisted = some (Json.obj l) ∧ objGet versionKey l = none ∧ s.hist = []) ∨
   (∃ l n, s.persisted = some (Json.obj l) ∧ objGet versionKey l = some (Json.num n) ∧
     1 ≤ n ∧ s.hist.map (fun c => c.version) = versRange n))

theorem replay_keyHeaded {hist : List ChangeSet} (h : KeyHeadedHist hist) :
    ∀ op ∈ concatPatches (sortByVersion hist), keyHeaded op = true := by
  intro op hop
  obtain ⟨c, hc, hopc⟩ := concatPatches_mem hop
  exact h c (sortByVersion_mem hc) op hopc

theorem replay_obj {hist : List ChangeSet} (h : KeyHeadedHist hist) :
    ∃ l, applyPatch (Json.obj []) (concatPatches (sortByVersion hist)) = Json.obj l :=
  applyPatch_obj_keyHeaded (replay_keyHeaded h) []

theorem Inv_init : Inv initState := by
  constructor
  · intro c hc; simp [initState] at hc
  · exact Or.inl ⟨rfl, rfl⟩

/-! ### Shapes taken by a save -/

theorem save_new_shape (s : SysState) (doc : Json) (meta : Option Json)
    (htr : truthyVer doc = false) :
    doSave s doc true meta false =
      { persisted := some (setVer doc 1)
        hist := s.hist ++ [⟨1, computeDiff (Json.obj []) (setVer doc 1), meta⟩] } := by
  simp [doSave, preSave, htr]

theorem save_backfill_shape (s : SysState) (p doc : Json) (meta : Option Json)
    (hs : s.persisted = some p) (htr : truthyVer doc = false) :
    doSave s doc false meta false =
      { persisted := some (setVer doc 2)
        hist := s.hist ++ [⟨1, computeDiff (Json.obj []) p, meta⟩,
                           ⟨2, computeDiff p (setVer doc 2), meta⟩] } := by
  simp [doSave, preSave, htr, hs]

theorem save_versioned_shape (s : SysState) (doc : Json) (meta : Option Json)
    (isNew : Bool) (htr : truthyVer doc = true) :
    doSave s doc isNew meta false =
      { persisted := some (incVer doc)
        hist := s.hist ++ [⟨(getVer (incVer doc)).getD 0,
          computeDiff (applyPatch (Json.obj []) (concatPatches (sortByVersion s.hist)))
            (incVer doc), meta⟩] } := by
  simp [doSave, preSave, htr]

theorem save_disabled_shape (s : SysState) (doc : Json) (meta : Option Json) (isNew : Bool) :
    doSave s doc isNew meta true = { persisted := some doc, hist := s.hist } := by
  simp [doSave]

/-! ### Preservation of the invariant -/

theorem Inv_step {s : SysState} (hInv : Inv s) (op : Op) (hok : opOk op = true) :
    Inv (runOp s op) := by
  obtain ⟨hKH, hP⟩ := hInv
  cases op with
  | save f meta =>
    have hf : payloadOk f = true := hok
    obtain ⟨lf, rfl, hlf⟩ := payloadOk_obj hf
    have htr : truthyVer (Json.obj lf) = false := truthyVer_payload hf
    rcases hP with ⟨hp, hh⟩ | ⟨l, hp, hg, hh⟩ | ⟨l, n, hp, hg, hn, hh⟩
    · -- NEW: no persisted counterpart
      simp only [runOp, hp]
      rw [save_new_shape s _ meta htr]
      constructor
      · intro c hc opx hopx
        rw [hh] at hc
        simp at hc
        subst hc
        exact computeDiff_objs_keyHeaded _ _ opx hopx
      · refine Or.inr (Or.inr ⟨objSet versionKey (Json.num 1) lf, 1, rfl,
          objGet_objSet_self _ _ _, le_refl 1, ?_⟩)
        rw [hh, versRange_one]
        rfl
    · -- BACKFILL: persisted counterpart without a version field
      have hgv : getVer (Json.obj l) = none := getVer_obj_none hg
      simp only [runOp, hp, hgv]
      rw [save_backfill_shape s _ _ meta hp htr]
      constructor
      · intro c hc opx hopx
        rw [hh] at hc
        simp at hc
        rcases hc with rfl | rfl
        · exact computeDiff_objs_keyHeaded _ _ opx hopx
        · exact computeDiff_objs_keyHeaded _ _ opx hopx
      · refine Or.inr (Or.inr ⟨objSet versionKey (Json.num 2) lf, 2, rfl,
          objGet_objSet_self _ _ _, by omega, ?_⟩)
        rw [hh]
        rfl
    · -- VERSIONED: increment and append
      have hgv : getVer (Json.obj l) = some n := by simp [getVer, hg]
      have htr2 : truthyVer (setVer (Json.obj lf) n) = true :=
        truthyVer_setVer_obj lf (by omega)
      simp only [runOp, hp, hgv]
      rw [save_versioned_shape s _ meta false htr2]
      have hingv : objGet versionKey (objSet versionKey (Json.num n) lf) =
          some (Json.num n) := objGet_objSet_self _ _ _
      have hinc : incVer (setVer (Json.obj lf) n) =
          Json.obj (objSet versionKey (Json.num (n + 1)) (objSet versionKey (Json.num n) lf)) := by
        rw [setVer_obj]
        exact incVer_obj hingv
      have hgv2 : getVer (incVer (setVer (Json.obj lf) n)) = some (n + 1) := by
        rw [hinc]
        simp [getVer, objGet_objSet_self]
      constructor
      · intro c hc opx hopx
        rcases List.mem_append.mp hc with hc | hc
        · exact hKH c hc opx hopx
        · simp at hc
          subst hc
          obtain ⟨lp, hlp⟩ := replay_obj hKH
          rw [hlp, hinc] at hopx
          exact computeDiff_objs_keyHeaded _ _ opx hopx
      · refine Or.inr (Or.inr ⟨objSet versionKey (Json.num (n + 1))
          (objSet versionKey (Json.num n) lf), n + 1, by rw [hinc],
          objGet_objSet_self _ _ _, by omega, ?_⟩)
        rw [List.map_append, hh, hgv2]
        rw [versRange_concat (by omega : (0:Int) ≤ n)]
        rfl
  | rollback =>
    rcases hP with ⟨hp, hh⟩ | ⟨l, hp, hg, hh⟩ | ⟨l, n, hp, hg, hn, hh⟩
    · simp only [runOp, hp]
      exact ⟨hKH, Or.inl ⟨hp, hh⟩⟩
    · have hgv : getVer (Json.obj l) = none := getVer_obj_none hg
      simp only [runOp, hp]
      rw [rollback_none s _ hgv]
      exact ⟨hKH, Or.inr (Or.inl ⟨l, hp, hg, hh⟩)⟩
    · by_cases h1 : n = 1
      · subst h1
        have hgv : getVer (Json.obj l) = some 1 := by simp [getVer, hg]
        simp only [runOp, hp]
        rw [rollback_v1 s _ hgv]
        have hsh : ∃ c, s.hist = [c] ∧ c.version = 1 := by
          rw [versRange_one] at hh
          cases hhist : s.hist with
          | nil => rw [hhist] at hh; simp at hh
          | cons c t =>
            rw [hhist] at hh
            simp at hh
            cases htail : t with
            | nil => exact ⟨c, rfl, hh.1⟩
            | cons d u => rw [htail] at hh; simp at hh
        obtain ⟨c, hc, hcv⟩ := hsh
        have hdel : deleteOneVersion 1 s.hist = [] := by
          rw [hc]
          simp [deleteOneVersion, hcv]
        constructor
        · intro c' hc' opx hopx
          rw [hdel] at hc'
          simp at hc'
        · exact Or.inl ⟨rfl, hdel⟩
      · have hn2 : 2 ≤ n := by omega
        have hgv : getVer (Json.obj l) = some n := by simp [getVer, hg]
        simp only [runOp, hp]
        obtain ⟨prev, hprevmem, hpv, hmax, heq⟩ := rollback_gt s _ n hgv hn2 hh
        rw [heq]
        constructor
        · intro c hc opx hopx
          exact hKH c (deleteOne_subset hc) opx hopx
        · have hkhp : ∀ opx ∈ prev.patches, keyHeaded opx = true := hKH prev hprevmem
          obtain ⟨lr, hlr⟩ := applyPatch_obj_keyHeaded hkhp l
          refine Or.inr (Or.inr ⟨objSet versionKey (Json.num (n - 1)) lr, n - 1,
            by rw [hlr]; rfl, objGet_objSet_self _ _ _, by omega, ?_⟩)
          have hsplit : s.hist.map (fun c => c.version) = versRange (n - 1) ++ [n] := by
            rw [hh]
            have hcc := versRange_concat (n := n - 1) (by omega)
            have harith : n - 1 + 1 = n := by omega
            rw [harith] at hcc
            exact hcc
          have hnotin : (n : Int) ∉ versRange (n - 1) := by
            rw [versRange_mem]
            omega
          exact (deleteOne_on_range s.hist (versRange (n - 1)) n hsplit hnotin).1
  | legacyCreate f =>
    have hf : payloadOk f = true := hok
    obtain ⟨lf, rfl, hlf⟩ := payloadOk_obj hf
    rcases hP with ⟨hp, hh⟩ | ⟨l, hp, hg, hh⟩ | ⟨l, n, hp, hg, hn, hh⟩
    · simp only [runOp, hp]
      rw [save_disabled_shape s _ none true]
      exact ⟨by simpa using hKH, Or.inr (Or.inl ⟨lf, rfl, hlf, by simpa using hh⟩)⟩
    · simp only [runOp, hp]
      exact ⟨hKH, Or.inr (Or.inl ⟨l, hp, hg, hh⟩)⟩
    · simp only [runOp, hp]
      exact ⟨hKH, Or.inr (Or.inr ⟨l, n, hp, hg, hn, hh⟩)⟩

theorem Inv_run_from : ∀ (ops : List Op) {s : SysState}, Inv s →
    (∀ op ∈ ops, opOk op = true) → Inv (ops.foldl runOp s) := by
  intro ops
  induction ops with
  | nil => intro s hInv _; simpa using hInv
  | cons op rest ih =>
    intro s hInv hok
    simp only [List.foldl_cons]
    exact ih (Inv_step hInv op (hok op (List.mem_cons_self _ _)))
      (fun o ho => hok o (List.mem_cons_of_mem _ ho))

theorem Inv_run (ops : List Op) (hok : ∀ op ∈ ops, opOk op = true) : Inv (run ops) :=
  Inv_run_from ops Inv_init hok

theorem Inv_versions {s : SysState} (h : Inv s) :
    s.hist.map (fun c => c.version) = versRange (curVer s) := by
  obtain ⟨-, hP⟩ := h
  rcases hP with ⟨hp, hh⟩ | ⟨l, hp, hg, hh⟩ | ⟨l, n, hp, hg, hn, hh⟩
  · rw [hh]; simp [curVer, hp, versRange_zero]
  · rw [hh]; simp [curVer, hp, getVer, hg, versRange_zero]
  · rw [hh]; simp [curVer, hp, getVer, hg]

theorem Inv_rollback_deletes_current {s : SysState} (h : Inv s) :
    ∀ c ∈ s.hist, c ∉ (runOp s Op.rollback).hist → c.version = curVer s := by
  obtain ⟨hKH, hP⟩ := h
  rcases hP with ⟨hp, hh⟩ | ⟨l, hp, hg, hh⟩ | ⟨l, n, hp, hg, hn, hh⟩
  · intro c hc
    rw [hh] at hc
    simp at hc
  · intro c hc hnc
    exfalso
    apply hnc
    simp only [runOp, hp]
    rw [rollback_none s _ (getVer_obj_none hg)]
    exact hc
  · intro c hc hnc
    have hcur : curVer s = n := by unfold curVer; rw [hp]; simp [getVer, hg]
    rw [hcur]
    by_cases h1 : n = 1
    · subst h1
      have hmm : c.version ∈ s.hist.map (fun c => c.version) :=
        List.mem_map_of_mem _ hc
      rw [hh, versRange_one] at hmm
      simpa using hmm
    · have hn2 : 2 ≤ n := by omega
      have hgv : getVer (Json.obj l) = some n := by simp [getVer, hg]
      obtain ⟨prev, hprevmem, hpv, hmax, heq⟩ := rollback_gt s _ n hgv hn2 hh
      simp only [runOp, hp] at hnc
      rw [heq] at hnc
      exact deleteOne_removed_version hc (by simpa using hnc)

theorem hist_single_of_range_one {hist : List ChangeSet}
    (hh : hist.map (fun c => c.version) = versRange 1) :
    ∃ c, hist = [c] ∧ c.version = 1 := by
  rw [versRange_one] at hh
  cases hhist : hist with
  | nil => rw [hhist] at hh; simp at hh
  | cons c t =>
    rw [hhist] at hh
    simp at hh
    cases htail : t with
    | nil => exact ⟨c, rfl, hh.1⟩
    | cons d u => rw [htail] at hh; simp at hh

/-! ## The claims -/

/-- C1: For every pair of well-formed snapshot trees (before, after),
applying the patch sequence produced by the diff engine to `before` yields
exactly `after`: apply(before, computeDiff(before, after)) == after (the
round-trip law of the just-diff/fast-json-patch pair the plugin relies
on). -/
theorem claim1_diff_apply_roundtrip (before after : Json)
    (hb : wf before = true) (ha : wf after = true) :
    applyPatch before (computeDiff before after) = after :=
  computeDiff_roundtrip before after hb ha

theorem claim1_diff_apply_roundtrip_witness :
    wf (Json.obj [("name", Json.str "A")]) = true ∧
    wf (Json.obj [("age", Json.num 31), ("name", Json.str "B")]) = true ∧
    applyPatch (Json.obj [("name", Json.str "A")])
      (computeDiff (Json.obj [("name", Json.str "A")])
        (Json.obj [("age", Json.num 31), ("name", Json.str "B")])) =
      Json.obj [("age", Json.num 31), ("name", Json.str "B")] :=
  ⟨by decide, by decide,
    claim1_diff_apply_roundtrip _ _ (by decide) (by decide)⟩

/-- C2: For a record at current version ≥ V ≥ 1, getVersion(record, V)
returns the snapshot obtained by concatenating the patch sequences of all
stored change-sets with version ≤ V in ascending version order and
applying the concatenation to the empty value — the spec's Snapshot(V) —
and, being a pure read over the store, it mutates neither the record nor
any stored change-set. -/
theorem claim2_getVersion_replay (s : SysState) (doc : Json) (cur vn : Int)
    (hver : getVer doc = some cur) (h1 : 1 ≤ vn) (h2 : vn ≤ cur) :
    getVersion s doc vn = GetVersionResult.ok (snapshotAt s.hist vn) := by
  unfold getVersion snapshotAt
  rw [hver]
  have hc1 : ¬ vn < 1 := by omega
  have hc2 : gtVer vn (some cur) = false := by
    simp only [gtVer, decide_eq_false_iff_not]
    omega
  simp [hc1, hc2]

theorem claim2_getVersion_replay_witness :
    getVer (Json.obj [(versionKey, Json.num 1)]) = some 1 ∧
    getVersion ⟨some (Json.obj [(versionKey, Json.num 1)]), [⟨1, [], none⟩]⟩
        (Json.obj [(versionKey, Json.num 1)]) 1 =
      GetVersionResult.ok (snapshotAt [⟨1, [], none⟩] 1) :=
  ⟨by decide, claim2_getVersion_replay _ _ 1 1 (by decide) (by decide) (by decide)⟩

/-- C3: After any sequence of save and rollback operations (with legacy
pre-versioning creation allowed), the stored change-set versions for the
record are exactly 1..current version — contiguous from 1, no gaps, no
duplicates (stated as an exact ascending list equation) — and any
change-set deletion performed by a rollback targets only the current
(highest) version. -/
theorem claim3_contiguity (ops : List Op) (hok : ∀ op ∈ ops, opOk op = true) :
    (run ops).hist.map (fun c => c.version) = versRange (curVer (run ops)) ∧
    ∀ c ∈ (run ops).hist, c ∉ (runOp (run ops) Op.rollback).hist →
      c.version = curVer (run ops) :=
  ⟨Inv_versions (Inv_run ops hok), Inv_rollback_deletes_current (Inv_run ops hok)⟩

theorem claim3_contiguity_witness :
    (∀ op ∈ ([Op.save (Json.obj [("name", Json.str "A")]) none,
              Op.save (Json.obj [("name", Json.str "B")]) none,
              Op.rollback] : List Op), opOk op = true) ∧
    ((run [Op.save (Json.obj [("name", Json.str "A")]) none,
           Op.save (Json.obj [("name", Json.str "B")]) none,
           Op.rollback]).hist.map (fun c => c.version) =
      versRange (curVer (run [Op.save (Json.obj [("name", Json.str "A")]) none,
           Op.save (Json.obj [("name", Json.str "B")]) none,
           Op.rollback])) ∧
     ∀ c ∈ (run [Op.save (Json.obj [("name", Json.str "A")]) none,
           Op.save (Json.obj [("name", Json.str "B")]) none,
           Op.rollback]).hist,
       c ∉ (runOp (run [Op.save (Json.obj [("name", Json.str "A")]) none,
           Op.save (Json.obj [("name", Json.str "B")]) none,
           Op.rollback]) Op.rollback).hist →
       c.version = curVer (run [Op.save (Json.obj [("name", Json.str "A")]) none,
           Op.save (Json.obj [("name", Json.str "B")]) none,
           Op.rollback])) :=
  ⟨by decide, claim3_contiguity _ (by decide)⟩

/-- C4: A save of a persisted record that lacks a version field
(pre-versioning legacy data) performs a backfill in one call: it appends
change-set 1 with operations computeDiff(empty, oldState) and change-set 2
with operations computeDiff(oldState, newState), and leaves the record at
version 2. -/
theorem claim4_backfill (s : SysState) (p f : Json) (lp : List (String × Json))
    (meta : Option Json) (hp : s.persisted = some p) (hpl : p = Json.obj lp)
    (habs : objGet versionKey lp = none) (hf : payloadOk f = true) :
    (runOp s (Op.save f meta)).hist =
      s.hist ++ [⟨1, computeDiff (Json.obj []) p, meta⟩,
                 ⟨2, computeDiff p (setVer f 2), meta⟩] ∧
    (runOp s (Op.save f meta)).persisted = some (setVer f 2) ∧
    getVer (setVer f 2) = some 2 := by
  obtain ⟨lf, rfl, hlf⟩ := payloadOk_obj hf
  subst hpl
  have hgv : getVer (Json.obj lp) = none := getVer_obj_none habs
  have htr : truthyVer (Json.obj lf) = false := truthyVer_payload hf
  simp only [runOp, hp, hgv]
  rw [save_backfill_shape s _ _ meta hp htr]
  exact ⟨rfl, rfl, getVer_setVer_obj lf 2⟩

theorem claim4_backfill_witness :
    (⟨some (Json.obj [("name", Json.str "A")]), []⟩ : SysState).persisted =
      some (Json.obj [("name", Json.str "A")]) ∧
    objGet versionKey [("name", Json.str "A")] = none ∧
    payloadOk (Json.obj [("name", Json.str "B")]) = true ∧
    ((runOp ⟨some (Json.obj [("name", Json.str "A")]), []⟩
        (Op.save (Json.obj [("name", Json.str "B")]) none)).hist =
      [] ++ [⟨1, computeDiff (Json.obj []) (Json.obj [("name", Json.str "A")]), none⟩,
             ⟨2, computeDiff (Json.obj [("name", Json.str "A")])
                   (setVer (Json.obj [("name", Json.str "B")]) 2), none⟩] ∧
     (runOp ⟨some (Json.obj [("name", Json.str "A")]), []⟩
        (Op.save (Json.obj [("name", Json.str "B")]) none)).persisted =
      some (setVer (Json.obj [("name", Json.str "B")]) 2) ∧
     getVer (setVer (Json.obj [("name", Json.str "B")]) 2) = some 2) :=
  ⟨rfl, rfl, by decide,
    claim4_backfill _ _ _ _ none rfl rfl rfl (by decide)⟩

/-- C5 (counterexample to the claim as stated): the version-1 change-set
appended during a backfill save does receive the caller's metadata — on
this concrete input both appended change-sets carry `some "user1"`, so
the version-1 change-set does not lack caller metadata. -/
theorem claim5_counterexample :
    ((runOp ⟨some (Json.obj [("name", Json.str "A")]), []⟩
        (Op.save (Json.obj [("name", Json.str "B")]) (some (Json.str "user1")))).hist.map
      (fun c => c.metadata)) =
      [some (Json.str "user1"), some (Json.str "user1")] ∧
    ((runOp ⟨some (Json.obj [("name", Json.str "A")]), []⟩
        (Op.save (Json.obj [("name", Json.str "B")]) (some (Json.str "user1")))).hist.map
      (fun c => c.version)) = [1, 2] := by
  constructor <;> rfl

/-- C5 (amended): both change-sets appended by a backfill save receive the
caller-supplied metadata — the version-1 change-set carries the same
`opts.metadata` as the version-2 change-set. -/
theorem claim5_backfill_metadata (s : SysState) (p f : Json)
    (lp : List (String × Json)) (meta : Option Json) (hp : s.persisted = some p)
    (hpl : p = Json.obj lp) (habs : objGet versionKey lp = none)
    (hf : payloadOk f = true) :
    (runOp s (Op.save f meta)).hist.map (fun c => c.metadata) =
      s.hist.map (fun c => c.metadata) ++ [meta, meta] := by
  obtain ⟨lf, rfl, hlf⟩ := payloadOk_obj hf
  subst hpl
  have hgv : getVer (Json.obj lp) = none := getVer_obj_none habs
  have htr : truthyVer (Json.obj lf) = false := truthyVer_payload hf
  simp only [runOp, hp, hgv]
  rw [save_backfill_shape s _ _ meta hp htr]
  simp

theorem claim5_backfill_metadata_witness :
    (⟨some (Json.obj [("name", Json.str "A")]), []⟩ : SysState).persisted =
      some (Json.obj [("name", Json.str "A")]) ∧
    objGet versionKey [("name", Json.str "A")] = none ∧
    payloadOk (Json.obj [("name", Json.str "B")]) = true ∧
    (runOp ⟨some (Json.obj [("name", Json.str "A")]), []⟩
        (Op.save (Json.obj [("name", Json.str "B")])
          (some (Json.str "user1")))).hist.map (fun c => c.metadata) =
      ([] : List ChangeSet).map (fun c => c.metadata) ++
        [some (Json.str "user1"), some (Json.str "user1")] :=
  ⟨rfl, rfl, by decide,
    claim5_backfill_metadata _ _ _ _ (some (Json.str "user1")) rfl rfl rfl (by decide)⟩

/-- C6: For a record at version N > 1 whose log holds versions 1..N with
key-headed patches, rollback finds the stored change-set with the greatest
version strictly below N (namely N-1), applies that change-set's forward
patch operations onto the record's current in-memory state, sets the
record's version to that change-set's version, persists with versioning
suppressed (no change-set is appended), and deletes the change-set at
version N; afterwards the record's version is N-1 and the stored
change-set count drops by exactly 1. -/
theorem claim6_rollback_decrement (s : SysState) (l : List (String × Json)) (n : Int)
    (hver : getVer (Json.obj l) = some n) (hn : 1 < n)
    (hh : s.hist.map (fun c => c.version) = versRange n)
    (hKH : KeyHeadedHist s.hist) :
    ∃ prev, prev ∈ s.hist ∧ prev.version = n - 1 ∧
      maxByVersion (s.hist.filter (ltVer (getVer (Json.obj l)))) = some prev ∧
      doRollback s (Json.obj l) =
        ({ persisted := some (setVer (applyPatch (Json.obj l) prev.patches) (n - 1)),
           hist := deleteOneVersion n s.hist },
         RollbackResult.ok (setVer (applyPatch (Json.obj l) prev.patches) (n - 1))) ∧
      getVer (setVer (applyPatch (Json.obj l) prev.patches) (n - 1)) = some (n - 1) ∧
      (deleteOneVersion n s.hist).map (fun c => c.version) = versRange (n - 1) ∧
      (deleteOneVersion n s.hist).length = s.hist.length - 1 := by
  obtain ⟨prev, hm, hpv, hmax, heq⟩ := rollback_gt s _ n hver (by omega) hh
  have hsplit : s.hist.map (fun c => c.version) = versRange (n - 1) ++ [n] := by
    rw [hh]
    have hcc := versRange_concat (n := n - 1) (by omega)
    have harith : n - 1 + 1 = n := by omega
    rw [harith] at hcc
    exact hcc
  have hnotin : (n : Int) ∉ versRange (n - 1) := by
    rw [versRange_mem]
    omega
  obtain ⟨hd₁, hd₂⟩ := deleteOne_on_range s.hist (versRange (n - 1)) n hsplit hnotin
  refine ⟨prev, hm, hpv, hmax, heq, ?_, hd₁, hd₂⟩
  obtain ⟨lr, hlr⟩ := applyPatch_obj_keyHeaded (hKH prev hm) l
  rw [hlr]
  exact getVer_setVer_obj lr (n - 1)

theorem claim6_rollback_decrement_witness :
    getVer (Json.obj [(versionKey, Json.num 2)]) = some 2 ∧
    ((1 : Int) < 2) ∧
    ([⟨1, [PatchOp.add [Seg.key "name"] (Json.str "A")], none⟩,
      ⟨2, [PatchOp.replace [Seg.key "name"] (Json.str "B")], none⟩] :
        List ChangeSet).map (fun c => c.version) = versRange 2 ∧
    KeyHeadedHist [⟨1, [PatchOp.add [Seg.key "name"] (Json.str "A")], none⟩,
      ⟨2, [PatchOp.replace [Seg.key "name"] (Json.str "B")], none⟩] ∧
    (∃ prev,
      prev ∈ (⟨some (Json.obj [(versionKey, Json.num 2)]),
        [⟨1, [PatchOp.add [Seg.key "name"] (Json.str "A")], none⟩,
         ⟨2, [PatchOp.replace [Seg.key "name"] (Json.str "B")], none⟩]⟩ : SysState).hist ∧
      prev.version = 2 - 1 ∧
      maxByVersion ((⟨some (Json.obj [(versionKey, Json.num 2)]),
        [⟨1, [PatchOp.add [Seg.key "name"] (Json.str "A")], none⟩,
         ⟨2, [PatchOp.replace [Seg.key "name"] (Json.str "B")], none⟩]⟩ : SysState).hist.filter
          (ltVer (getVer (Json.obj [(versionKey, Json.num 2)])))) = some prev ∧
      doRollback ⟨some (Json.obj [(versionKey, Json.num 2)]),
        [⟨1, [PatchOp.add [Seg.key "name"] (Json.str "A")], none⟩,
         ⟨2, [PatchOp.replace [Seg.key "name"] (Json.str "B")], none⟩]⟩
        (Json.obj [(versionKey, Json.num 2)]) =
        ({ persisted := some (setVer (applyPatch (Json.obj [(versionKey, Json.num 2)])
             prev.patches) (2 - 1)),
           hist := deleteOneVersion 2
             [⟨1, [PatchOp.add [Seg.key "name"] (Json.str "A")], none⟩,
              ⟨2, [PatchOp.replace [Seg.key "name"] (Json.str "B")], none⟩] },
         RollbackResult.ok (setVer (applyPatch (Json.obj [(versionKey, Json.num 2)])
           prev.patches) (2 - 1))) ∧
      getVer (setVer (applyPatch (Json.obj [(versionKey, Json.num 2)]) prev.patches)
        (2 - 1)) = some (2 - 1) ∧
      (deleteOneVersion 2
        [⟨1, [PatchOp.add [Seg.key "name"] (Json.str "A")], none⟩,
         ⟨2, [PatchOp.replace [Seg.key "name"] (Json.str "B")], none⟩]).map
        (fun c => c.version) = versRange (2 - 1) ∧
      (deleteOneVersion 2
        [⟨1, [PatchOp.add [Seg.key "name"] (Json.str "A")], none⟩,
         ⟨2, [PatchOp.replace [Seg.key "name"] (Json.str "B")], none⟩]).length =
        ([⟨1, [PatchOp.add [Seg.key "name"] (Json.str "A")], none⟩,
          ⟨2, [PatchOp.replace [Seg.key "name"] (Json.str "B")], none⟩] :
            List ChangeSet).length - 1) :=
  ⟨by decide, by decide, by decide, by unfold KeyHeadedHist; decide,
    claim6_rollback_decrement _ _ 2 (by decide) (by decide) (by decide)
      (by unfold KeyHeadedHist; decide)⟩

/-- C7: Rolling back a record at version 1 deletes the record itself and
the change-set at version 1, leaving no record and zero stored change-sets
for that record. -/
theorem claim7_rollback_terminal (s : SysState) (doc : Json)
    (hver : getVer doc = some 1)
    (hh : s.hist.map (fun c => c.version) = versRange 1) :
    doRollback s doc = ({ persisted := none, hist := [] }, RollbackResult.deleted) := by
  rw [rollback_v1 s doc hver]
  obtain ⟨c, hc, hcv⟩ := hist_single_of_range_one hh
  rw [hc]
  simp [deleteOneVersion, hcv]

theorem claim7_rollback_terminal_witness :
    getVer (Json.obj [(versionKey, Json.num 1)]) = some 1 ∧
    ([⟨1, [PatchOp.add [Seg.key "name"] (Json.str "A")], none⟩] :
      List ChangeSet).map (fun c => c.version) = versRange 1 ∧
    doRollback ⟨some (Json.obj [(versionKey, Json.num 1)]),
        [⟨1, [PatchOp.add [Seg.key "name"] (Json.str "A")], none⟩]⟩
      (Json.obj [(versionKey, Json.num 1)]) =
      ({ persisted := none, hist := [] }, RollbackResult.deleted) :=
  ⟨by decide, by decide, claim7_rollback_terminal _ _ (by decide) (by decide)⟩

/-- C8: For a record carrying a (numeric) version field, getVersion fails
with InvalidVersion exactly when the argument lies outside [1, current];
within bounds it does not fail for that reason. -/
theorem claim8_invalid_version_iff (s : SysState) (doc : Json) (cur vn : Int)
    (hver : getVer doc = some cur) :
    getVersion s doc vn = GetVersionResult.invalidVersion ↔ (vn < 1 ∨ vn > cur) := by
  unfold getVersion
  rw [hver]
  by_cases h1 : vn < 1
  · simp [h1]
  · by_cases h2 : vn > cur
    · simp [h1, h2, gtVer]
    · simp [h1, h2, gtVer]

theorem claim8_invalid_version_iff_witness :
    getVer (Json.obj [(versionKey, Json.num 2)]) = some 2 ∧
    (getVersion ⟨none, []⟩ (Json.obj [(versionKey, Json.num 2)]) 5 =
        GetVersionResult.invalidVersion ↔ ((5 : Int) < 1 ∨ (5 : Int) > 2)) :=
  ⟨by decide, claim8_invalid_version_iff _ _ 2 5 (by decide)⟩

/-- C9: A Remove operation whose path does not exist in the (well-formed)
intermediate tree is treated as a no-op by the patch applier, and the
remaining operations are applied as if the Remove were absent — no error
is raised. -/
theorem claim9_remove_missing_noop (d : Json) (p : List Seg) (pre rest : List PatchOp)
    (hwf : wf (applyPatch d pre) = true)
    (hmiss : getPath (applyPatch d pre) p = none) :
    applyPatch d (pre ++ PatchOp.remove p :: rest) = applyPatch d (pre ++ rest) := by
  rw [applyPatch_append, applyPatch_append, applyPatch_cons]
  rw [show applyOp (applyPatch d pre) (PatchOp.remove p) = applyPatch d pre from
    removeAt_missing p _ hwf hmiss]

theorem claim9_remove_missing_noop_witness :
    wf (applyPatch (Json.obj [("name", Json.str "A")]) []) = true ∧
    getPath (applyPatch (Json.obj [("name", Json.str "A")]) []) [Seg.key "age"] = none ∧
    applyPatch (Json.obj [("name", Json.str "A")])
        ([] ++ PatchOp.remove [Seg.key "age"] ::
          [PatchOp.replace [Seg.key "name"] (Json.str "B")]) =
      applyPatch (Json.obj [("name", Json.str "A")])
        ([] ++ [PatchOp.replace [Seg.key "name"] (Json.str "B")]) :=
  ⟨by decide, rfl, claim9_remove_missing_noop _ _ [] _ (by decide) rfl⟩

/-- C10: For a record whose version field is absent, getVersion raises
InvalidVersion only when V < 1 (the JavaScript comparison V > undefined is
false); for every V ≥ 1 the bounds check passes and the method proceeds to
query and replay the stored change-sets. -/
theorem claim10_absent_version_bounds (s : SysState) (l : List (String × Json)) (vn : Int)
    (habs : objGet versionKey l = none) :
    (getVersion s (Json.obj l) vn = GetVersionResult.invalidVersion ↔ vn < 1) ∧
    (1 ≤ vn → getVersion s (Json.obj l) vn =
      GetVersionResult.ok (snapshotAt s.hist vn)) := by
  have hv : getVer (Json.obj l) = none := getVer_obj_none habs
  unfold getVersion snapshotAt
  rw [hv]
  constructor
  · by_cases h1 : vn < 1
    · simp [h1]
    · simp [h1, gtVer]
  · intro h1
    have hc1 : ¬ vn < 1 := by omega
    simp [hc1, gtVer]

theorem claim10_absent_version_bounds_witness :
    objGet versionKey [("name", Json.str "A")] = none ∧
    ((getVersion ⟨none, []⟩ (Json.obj [("name", Json.str "A")]) 3 =
        GetVersionResult.invalidVersion ↔ (3 : Int) < 1) ∧
     ((1 : Int) ≤ 3 → getVersion ⟨none, []⟩ (Json.obj [("name", Json.str "A")]) 3 =
        GetVersionResult.ok (snapshotAt [] 3))) :=
  ⟨rfl, claim10_absent_version_bounds _ _ 3 rfl⟩

end MVH
